import Mathlib

/-!
Verification of the plugin lifecycle orchestrator.

Shallow embedding of the repository's dependency resolver
(`dependency-resolver.ts`: `detectCircularDependency`,
`detectMissingDependencies`, `topologicalSort`) and of the
`PluginManager` class (`manager.ts`): registration, the lifecycle state
machine (`install` / `activate` / `deactivate` / `uninstall`), dependency
validation, and the event fan-out methods (`triggerStop`,
`triggerShutdown`, `triggerRequest`, `triggerHealthCheck`, `shutdown`).

Modelling conventions:
* TypeScript `Map` objects become association lists `List (String × α)`
  with position-preserving update (`mset`), mirroring the insertion-order
  semantics of `Map.set` / `Map.delete` / iteration.
* i18n error messages (`$tr(key, params)`) become constructors of the
  inductive type `ErrMsg` carrying the same parameters.
* `eventEmitter.emit` calls become entries appended to an event log;
  hook invocations are additionally recorded as `Ev.hookCall` entries so
  that invocation order is observable.
* Plugin hooks are modelled by their observable behaviour: an optional
  value of type `Except ErrMsg α` (the hook either throws or returns).
* The unbounded DFS recursions of the resolver are given explicit fuel;
  the fuel supplied at every call site (`length + 1`) is proved adequate
  in the lemmas below (the fuel-exhaustion branches are unreachable).
* Wall-clock values (`Date.now()`) are modelled as the constant 0; the
  claims under verification do not depend on elapsed time.
-/

/-- Lifecycle states of a plugin (`PluginState` in `types.ts`). -/
inductive PluginState where
  | registered
  | installed
  | active
  | inactive
  | uninstalled
deriving DecidableEq, Repr

/-- Rendering of an optional state as it appears in error messages:
`state ?? "undefined"` / `depState || "undefined"`. -/
def optStateStr : Option PluginState → String
  | none => "undefined"
  | some .registered => "registered"
  | some .installed => "installed"
  | some .active => "active"
  | some .inactive => "inactive"
  | some .uninstalled => "uninstalled"

/-- Errors thrown by the manager and the resolver.  Each constructor is
one i18n message key together with its interpolation parameters. -/
inductive ErrMsg where
  | pluginAlreadyRegistered (name : String)
  | pluginNotRegistered (name : String)
  | pluginWrongStateInstall (name state : String)
  | pluginWrongStateActivate (name state : String)
  | pluginWrongStateDeactivate (name state : String)
  | pluginDependencyNotActive (name dep state : String)
  | circularDependency (cycle : List String) (first : String)
  | missingDependency (missing : List (String × List String))
  | circularDependencyCycle (name : String)
  | circularDependencyAll (cycle : List String) (first : String)
  | missingDependencyAll (missing : List (String × List String))
  | userErr (code : Nat)
  | fuelExhausted (name : String)
deriving DecidableEq, Repr

/-- Rendering of an error to the string stored in a health-check entry's
`message` field (models the `.message` of the thrown `Error`). -/
def errText : ErrMsg → String
  | .pluginAlreadyRegistered n => "already registered: " ++ n
  | .pluginNotRegistered n => "not registered: " ++ n
  | .pluginWrongStateInstall n s => "wrong state for install: " ++ n ++ " " ++ s
  | .pluginWrongStateActivate n s => "wrong state for activate: " ++ n ++ " " ++ s
  | .pluginWrongStateDeactivate n s => "wrong state for deactivate: " ++ n ++ " " ++ s
  | .pluginDependencyNotActive n d s => "dependency not active: " ++ n ++ " " ++ d ++ " " ++ s
  | .circularDependency c _ => "circular dependency: " ++ String.intercalate " -> " c
  | .missingDependency _ => "missing dependency"
  | .circularDependencyCycle n => "circular dependency at: " ++ n
  | .circularDependencyAll c _ => "circular dependency: " ++ String.intercalate " -> " c
  | .missingDependencyAll _ => "missing dependency"
  | .userErr k => "plugin error " ++ toString k
  | .fuelExhausted n => "fuel exhausted: " ++ n

/-- An HTTP response value (opaque; only its identity matters: the
`result instanceof Response` test in `triggerRequest`). -/
structure Response where
  code : Nat
deriving DecidableEq, Repr

/-- Overall health statuses. -/
inductive HStat where
  | healthy
  | unhealthy
  | degraded
deriving DecidableEq, Repr

/-- Per-check statuses. -/
inductive CStat where
  | pass
  | fail
  | warn
deriving DecidableEq, Repr

/-- One entry of the aggregated check map. -/
structure CheckEntry where
  status : CStat
  message : Option String := none
  duration : Option Nat := none
deriving DecidableEq, Repr

/-- The value returned by a plugin's `onHealthCheck` hook. -/
structure HealthResult where
  status : HStat
  checks : Option (List (String × CheckEntry)) := none
deriving DecidableEq, Repr

/-- The aggregated health status returned by `triggerHealthCheck`. -/
structure HealthStatus where
  status : HStat
  checks : List (String × CheckEntry)
  timestamp : Nat
deriving DecidableEq, Repr

/-- Hook kinds recorded in the invocation trace. -/
inductive HK where
  | hkStop
  | hkShutdown
  | hkRequest
deriving DecidableEq, Repr

/-- Events emitted through the manager's event emitter, plus `hookCall`
entries recording each plugin-hook invocation. -/
inductive Ev where
  | registered (name : String)
  | replaced (name : String)
  | installed (name : String)
  | activated (name : String)
  | deactivated (name : String)
  | uninstalled (name : String)
  | pluginError (name : String) (e : ErrMsg)
  | appStop
  | appShutdown
  | appRequest
  | appHealth
  | hookCall (name : String) (k : HK)
deriving DecidableEq, Repr

instance {ε α : Type} [DecidableEq ε] [DecidableEq α] :
    DecidableEq (Except ε α) := fun a b =>
  match a, b with
  | .ok x, .ok y =>
    if h : x = y then .isTrue (by rw [h]) else .isFalse (by simp [h])
  | .error x, .error y =>
    if h : x = y then .isTrue (by rw [h]) else .isFalse (by simp [h])
  | .ok _, .error _ => .isFalse (by simp)
  | .error _, .ok _ => .isFalse (by simp)

/-- A plugin descriptor.  Hooks are modelled by their observable
behaviour at a call: `none` means the hook is absent; `some (.error e)`
means invoking it throws `e`; `some (.ok v)` means it returns `v`. -/
structure Plugin where
  name : String
  version : String := ""
  dependencies : List String := []
  onStop : Option (Except ErrMsg Unit) := none
  onShutdown : Option (Except ErrMsg Unit) := none
  onRequest : Option (Except ErrMsg (Option Response)) := none
  onHealthCheck : Option (Except ErrMsg HealthResult) := none
deriving DecidableEq, Repr

/-! ### Association maps

`Map<string, T>` with insertion-order iteration.  `mset` updates an
existing key in place (preserving its position, as `Map.set` does) and
otherwise appends; `mdel` removes the entry. -/

/-- `Map.get`. -/
def mget {α : Type} (l : List (String × α)) (k : String) : Option α :=
  (l.find? (fun e => e.1 = k)).map (fun e => e.2)

/-- `Map.has`. -/
def mhas {α : Type} (l : List (String × α)) (k : String) : Bool :=
  l.any (fun e => e.1 = k)

/-- `Map.set` (position-preserving update-or-append). -/
def mset {α : Type} : List (String × α) → String → α → List (String × α)
  | [], k, v => [(k, v)]
  | e :: t, k, v => if e.1 = k then (k, v) :: t else e :: mset t k v

/-- `Map.delete`. -/
def mdel {α : Type} : List (String × α) → String → List (String × α)
  | [], _ => []
  | e :: t, k => if e.1 = k then t else e :: mdel t k

/-- `Map.keys` (iteration order). -/
def mkeys {α : Type} (l : List (String × α)) : List String :=
  l.map (fun e => e.1)

/-! ### Dependency resolver (`dependency-resolver.ts`) -/

/-- The dependency list the resolver reads for a name:
`plugins.get(name)?.dependencies`, with a missing plugin or an absent
`dependencies` field contributing no edges. -/
def depsOf (plugins : List (String × Plugin)) (name : String) : List String :=
  match mget plugins name with
  | some p => p.dependencies
  | none => []

/-- A declared-dependency edge followed by the resolver: `v` is declared
by (registered) `u` and is itself a registered name. -/
def edge (plugins : List (String × Plugin)) (u v : String) : Prop :=
  v ∈ depsOf plugins u ∧ mhas plugins v = true

instance (plugins : List (String × Plugin)) (u v : String) :
    Decidable (edge plugins u v) := by
  unfold edge; infer_instance

/-- The registered dependency graph contains a cycle. -/
def hasCycle (plugins : List (String × Plugin)) : Prop :=
  ∃ n, Relation.TransGen (edge plugins) n n

/-- The dependency loop inside `detectCircularDependency`'s `dfs`:
iterates the current plugin's dependencies, skipping unregistered names,
recursing through `recFn` and short-circuiting on a found cycle. -/
def dfsCDeps (plugins : List (String × Plugin))
    (recFn : List String → String → Option (List String) × List String) :
    List String → List String → Option (List String) × List String
  | visited, [] => (none, visited)
  | visited, d :: ds =>
    if mhas plugins d then
      match recFn visited d with
      | (some c, v) => (some c, v)
      | (none, v) => dfsCDeps plugins recFn v ds
    else dfsCDeps plugins recFn visited ds

/-- `dfs` of `detectCircularDependency`.  `path` is the recursion stack
(the source's `path` array and `recursionStack` set, which stay in sync);
`visited` is threaded through.  Recursion is structural on `fuel`; the
call sites supply `plugins.length + 1`, proved adequate below. -/
def dfsC (plugins : List (String × Plugin)) :
    Nat → List String → List String → String →
    Option (List String) × List String
  | 0, _, visited, _ => (none, visited)
  | fuel + 1, path, visited, name =>
    if name ∈ path then
      (some (path.dropWhile (fun x => x ≠ name) ++ [name]), visited)
    else if name ∈ visited then
      (none, visited)
    else
      dfsCDeps plugins (dfsC plugins fuel (path ++ [name]))
        (visited ++ [name]) (depsOf plugins name)

/-- Outer loop of `detectCircularDependency`: run `dfs` from every not
yet visited key, with `visited` persisting across roots and the path /
recursion stack reset to empty. -/
def detectOuter (plugins : List (String × Plugin)) :
    List String → List String → Option (List String)
  | [], _ => none
  | k :: ks, visited =>
    if k ∈ visited then detectOuter plugins ks visited
    else
      match dfsC plugins (plugins.length + 1) [] visited k with
      | (some c, _) => some c
      | (none, v) => detectOuter plugins ks v

/-- `detectCircularDependency(plugins)`: the found cycle path, or `none`
when the registered dependency graph is acyclic. -/
def detectCircularDependency (plugins : List (String × Plugin)) :
    Option (List String) :=
  detectOuter plugins (mkeys plugins) []

/-- `detectMissingDependencies(plugins)`: per plugin, its declared
dependencies absent from the registry. -/
def detectMissingDependencies (plugins : List (String × Plugin)) :
    List (String × List String) :=
  plugins.filterMap (fun e =>
    let m := e.2.dependencies.filter (fun d => ¬ mhas plugins d)
    if m = [] then none else some (e.1, m))

/-- The dependency loop inside `topologicalSort`'s `dfs`: recurse into
each dependency that is inside the requested subset. -/
def dfsTDeps (targets : List String)
    (recFn : List String × List String → String →
      Except ErrMsg (List String × List String)) :
    List String × List String → List String →
    Except ErrMsg (List String × List String)
  | acc, [] => .ok acc
  | acc, d :: ds =>
    if d ∈ targets then
      match recFn acc d with
      | .error e => .error e
      | .ok acc' => dfsTDeps targets recFn acc' ds
    else dfsTDeps targets recFn acc ds

/-- `dfs` of `topologicalSort`.  `visiting` is the currently-visiting
marker set (stack-disciplined, so passed downward); `acc` is the pair of
the `visited` set and the `sorted` output array, threaded through.  The
fuel-exhaustion branch is unreachable for the fuel supplied at the call
site (`targets.length + 1`), proved below. -/
def dfsT (plugins : List (String × Plugin)) (targets : List String) :
    Nat → List String → List String × List String → String →
    Except ErrMsg (List String × List String)
  | 0, _, _, name => .error (.fuelExhausted name)
  | fuel + 1, visiting, acc, name =>
    if name ∈ visiting then .error (.circularDependencyCycle name)
    else if name ∈ acc.1 then .ok acc
    else
      match dfsTDeps targets (dfsT plugins targets fuel (visiting ++ [name]))
          acc (depsOf plugins name) with
      | .error e => .error e
      | .ok (v, srt) => .ok (v ++ [name], srt ++ [name])

/-- Outer loop of `topologicalSort`: run `dfs` from every target not yet
visited. -/
def sortOuter (plugins : List (String × Plugin)) (targets : List String)
    (fuel : Nat) :
    List String → List String × List String →
    Except ErrMsg (List String × List String)
  | [], acc => .ok acc
  | t :: ts, acc =>
    if t ∈ acc.1 then sortOuter plugins targets fuel ts acc
    else
      match dfsT plugins targets fuel [] acc t with
      | .error e => .error e
      | .ok acc' => sortOuter plugins targets fuel ts acc'

/-- `topologicalSort(plugins, pluginNames?)`: re-validates the whole map
(cycle check, then missing-dependency check), then DFS-sorts the
requested subset (default: all keys). -/
def topologicalSort (plugins : List (String × Plugin))
    (pluginNames : Option (List String)) : Except ErrMsg (List String) :=
  match detectCircularDependency plugins with
  | some c => .error (.circularDependency c (c.headD ""))
  | none =>
    let missing := detectMissingDependencies plugins
    if missing ≠ [] then .error (.missingDependency missing)
    else
      let targets := pluginNames.getD (mkeys plugins)
      match sortOuter plugins targets (targets.length + 1) targets ([], []) with
      | .error e => .error e
      | .ok acc => .ok acc.2

/-! ### The plugin manager (`manager.ts`) -/

/-- The mutable state of a `PluginManager` instance: the five parallel
maps plus the (flattened) constructor options relevant to the claims. -/
structure MState where
  plugins : List (String × Plugin) := []
  pluginStates : List (String × PluginState) := []
  pluginServices : List (String × List String) := []
  pluginConfigs : List (String × Nat) := []
  pluginErrors : List (String × ErrMsg) := []
  autoActivate : Bool := false
  continueOnError : Bool := true
deriving DecidableEq, Repr

/-- The outcome of one manager operation: the returned-or-thrown result,
the state after the operation (mutations made before a throw are kept,
as in the source), and the emitted event / hook-invocation log. -/
structure StepOut (α : Type) where
  res : Except ErrMsg α
  s : MState
  log : List Ev
deriving DecidableEq, Repr

namespace PluginManager

/-- `register(plugin, { replace })`. -/
def register (s : MState) (p : Plugin) (replace : Bool) : StepOut Unit :=
  if mhas s.plugins p.name then
    if !replace then
      ⟨.error (.pluginAlreadyRegistered p.name), s, []⟩
    else
      let s₁ : MState :=
        { s with
          pluginStates := mdel s.pluginStates p.name
          pluginServices := mdel s.pluginServices p.name
          pluginConfigs := mdel s.pluginConfigs p.name
          pluginErrors := mdel s.pluginErrors p.name }
      let s₂ : MState :=
        { s₁ with
          plugins := mset s₁.plugins p.name p
          pluginStates := mset s₁.pluginStates p.name .registered }
      ⟨.ok (), s₂, [Ev.replaced p.name, Ev.registered p.name]⟩
  else
    let s₂ : MState :=
      { s with
        plugins := mset s.plugins p.name p
        pluginStates := mset s.pluginStates p.name .registered }
    ⟨.ok (), s₂, [Ev.registered p.name]⟩

/-- The dependency loop inside `activate`: the first declared dependency
whose current state is not `active` (the loop throws at it). -/
def firstUnmet (states : List (String × PluginState)) : List String → Option String
  | [] => none
  | d :: ds =>
    if mget states d ≠ some .active then some d else firstUnmet states ds

/-- `activate(name)`. -/
def activate (s : MState) (name : String) : StepOut Unit :=
  match mget s.plugins name with
  | none => ⟨.error (.pluginNotRegistered name), s, []⟩
  | some p =>
    let cur := mget s.pluginStates name
    if cur = some .installed ∨ cur = some .inactive then
      match firstUnmet s.pluginStates p.dependencies with
      | some d =>
        ⟨.error (.pluginDependencyNotActive name d
            (optStateStr (mget s.pluginStates d))), s, []⟩
      | none =>
        ⟨.ok (),
          { s with
            pluginStates := mset s.pluginStates name .active
            pluginErrors := mdel s.pluginErrors name },
          [Ev.activated name]⟩
    else
      ⟨.error (.pluginWrongStateActivate name (optStateStr cur)), s, []⟩

/-- `deactivate(name)`. -/
def deactivate (s : MState) (name : String) : StepOut Unit :=
  match mget s.plugins name with
  | none => ⟨.error (.pluginNotRegistered name), s, []⟩
  | some _ =>
    let cur := mget s.pluginStates name
    if cur = some .active then
      ⟨.ok (),
        { s with
          pluginStates := mset s.pluginStates name .inactive
          pluginErrors := mdel s.pluginErrors name },
        [Ev.deactivated name]⟩
    else
      ⟨.error (.pluginWrongStateDeactivate name (optStateStr cur)), s, []⟩

/-- `uninstall(name)`. -/
def uninstall (s : MState) (name : String) : StepOut Unit :=
  match mget s.plugins name with
  | none => ⟨.error (.pluginNotRegistered name), s, []⟩
  | some _ =>
    let cur := mget s.pluginStates name
    if cur = some .uninstalled then ⟨.ok (), s, []⟩
    else
      let step : StepOut Unit :=
        if cur = some .active then deactivate s name else ⟨.ok (), s, []⟩
      match step.res with
      | .error e => ⟨.error e, step.s, step.log⟩
      | .ok _ =>
        let s₁ := step.s
        ⟨.ok (),
          { s₁ with
            pluginServices := mdel s₁.pluginServices name
            pluginStates := mset s₁.pluginStates name .uninstalled
            pluginErrors := mdel s₁.pluginErrors name
            pluginConfigs := mdel s₁.pluginConfigs name },
          step.log ++ [Ev.uninstalled name]⟩

/-- `installPlugin(name)` (private): unconditionally marks the plugin
installed, initialises its service footprint, emits `installed`, and
auto-activates when the `autoActivate` option is set. -/
def installPlugin (s : MState) (name : String) : StepOut Unit :=
  let s₁ : MState :=
    { s with
      pluginStates := mset s.pluginStates name .installed
      pluginServices := mset s.pluginServices name [] }
  if s.autoActivate then
    let o := activate s₁ name
    ⟨o.res, o.s, Ev.installed name :: o.log⟩
  else
    ⟨.ok (), s₁, [Ev.installed name]⟩

/-- The body of `install`'s try block after dependency resolution:
install every dependency still in state `registered` in resolved order
(skipping `name` itself), then install `name`. -/
def installSeq (name : String) :
    List String → MState → List Ev → StepOut Unit
  | [], s, log =>
    let o := installPlugin s name
    ⟨o.res, o.s, log ++ o.log⟩
  | d :: ds, s, log =>
    if d = name then installSeq name ds s log
    else if mget s.pluginStates d = some .registered then
      let o := installPlugin s d
      match o.res with
      | .error e => ⟨.error e, o.s, log ++ o.log⟩
      | .ok _ => installSeq name ds o.s (log ++ o.log)
    else installSeq name ds s log

/-- Fuel for the breadth-first dependency collection of
`resolveInstallOrder` (each name is enqueued at most once, so the number
of loop iterations is bounded by the total number of declared
dependencies plus one). -/
def bfsFuel (plugins : List (String × Plugin)) : Nat :=
  plugins.foldl (fun a e => a + e.2.dependencies.length) 0 + plugins.length + 2

/-- The breadth-first collection loop of `resolveInstallOrder`:
`queue` of names still to expand, `related` the set collected so far (in
first-seen order). -/
def collectRelated (plugins : List (String × Plugin)) :
    Nat → List String → List String → List String
  | 0, _, related => related
  | _ + 1, [], related => related
  | fuel + 1, q :: queue, related =>
    let step :=
      (depsOf plugins q).foldl
        (fun (acc : List String × List String) d =>
          if d ∈ acc.1 then acc else (acc.1 ++ [d], acc.2 ++ [d]))
        (related, queue)
    collectRelated plugins fuel step.2 step.1

/-- `resolveInstallOrder(name)` (private): collect the transitive
dependency closure of `name`, then topologically sort it against the
full plugin map. -/
def resolveInstallOrder (plugins : List (String × Plugin)) (name : String) :
    Except ErrMsg (List String) :=
  topologicalSort plugins
    (some (collectRelated plugins (bfsFuel plugins) [name] [name]))

/-- `install(name)`. -/
def install (s : MState) (name : String) : StepOut Unit :=
  match mget s.plugins name with
  | none => ⟨.error (.pluginNotRegistered name), s, []⟩
  | some _ =>
    let cur := mget s.pluginStates name
    if cur = some .registered then
      let attempt : StepOut Unit :=
        match resolveInstallOrder s.plugins name with
        | .error e => ⟨.error e, s, []⟩
        | .ok order => installSeq name order s []
      match attempt.res with
      | .ok _ => attempt
      | .error e =>
        let s₁ : MState :=
          { attempt.s with pluginErrors := mset attempt.s.pluginErrors name e }
        let log₁ := attempt.log ++ [Ev.pluginError name e]
        if !s.continueOnError then ⟨.error e, s₁, log₁⟩
        else ⟨.ok (), s₁, log₁⟩
    else
      ⟨.error (.pluginWrongStateInstall name (optStateStr cur)), s, []⟩

/-- `validateDependencies()` with the `name` argument omitted: check the
whole registry for cycles, then for missing dependencies. -/
def validateDependenciesAll (plugins : List (String × Plugin)) :
    Except ErrMsg Unit :=
  match detectCircularDependency plugins with
  | some c => .error (.circularDependencyAll c (c.headD ""))
  | none =>
    let missing := detectMissingDependencies plugins
    if missing ≠ [] then .error (.missingDependencyAll missing)
    else .ok ()

/-- `getActivePlugins()` (private): the plugins whose state is `active`,
in the iteration (insertion) order of the `pluginStates` map. -/
def getActivePlugins (s : MState) : List Plugin :=
  s.pluginStates.filterMap (fun e =>
    if e.2 = PluginState.active then mget s.plugins e.1 else none)

/-- The loop of `triggerStop`: invoke each plugin's `onStop`; on a throw,
record and emit the error, and re-throw when `continueOnError` is
false. -/
def stopLoop : List Plugin → MState → List Ev → StepOut Unit
  | [], s, log => ⟨.ok (), s, log ++ [Ev.appStop]⟩
  | p :: ps, s, log =>
    match p.onStop with
    | none => stopLoop ps s log
    | some beh =>
      let log₁ := log ++ [Ev.hookCall p.name HK.hkStop]
      match beh with
      | .ok _ => stopLoop ps s log₁
      | .error e =>
        let s₁ : MState :=
          { s with pluginErrors := mset s.pluginErrors p.name e }
        let log₂ := log₁ ++ [Ev.pluginError p.name e]
        if s.continueOnError then stopLoop ps s₁ log₂
        else ⟨.error e, s₁, log₂⟩

/-- `triggerStop()`: `onStop` hooks of the active plugins in reverse
order. -/
def triggerStop (s : MState) : StepOut Unit :=
  stopLoop (getActivePlugins s).reverse s []

/-- The loop of `triggerShutdown`: like `stopLoop`, but a thrown error is
never re-thrown (every plugin must get a cleanup attempt). -/
def shutdownLoop : List Plugin → MState → List Ev → StepOut Unit
  | [], s, log => ⟨.ok (), s, log ++ [Ev.appShutdown]⟩
  | p :: ps, s, log =>
    match p.onShutdown with
    | none => shutdownLoop ps s log
    | some beh =>
      let log₁ := log ++ [Ev.hookCall p.name HK.hkShutdown]
      match beh with
      | .ok _ => shutdownLoop ps s log₁
      | .error e =>
        shutdownLoop ps
          { s with pluginErrors := mset s.pluginErrors p.name e }
          (log₁ ++ [Ev.pluginError p.name e])

/-- `triggerShutdown()`: `onShutdown` hooks of the active plugins in
reverse order. -/
def triggerShutdown (s : MState) : StepOut Unit :=
  shutdownLoop (getActivePlugins s).reverse s []

/-- The loop of `triggerRequest`: invoke each plugin's `onRequest`; the
first `Response` returned is returned immediately (skipping the rest and
the final `app:request` emission). -/
def requestLoop : List Plugin → MState → List Ev → StepOut (Option Response)
  | [], s, log => ⟨.ok none, s, log ++ [Ev.appRequest]⟩
  | p :: ps, s, log =>
    match p.onRequest with
    | none => requestLoop ps s log
    | some beh =>
      let log₁ := log ++ [Ev.hookCall p.name HK.hkRequest]
      match beh with
      | .ok (some r) => ⟨.ok (some r), s, log₁⟩
      | .ok none => requestLoop ps s log₁
      | .error e =>
        let s₁ : MState :=
          { s with pluginErrors := mset s.pluginErrors p.name e }
        let log₂ := log₁ ++ [Ev.pluginError p.name e]
        if s.continueOnError then requestLoop ps s₁ log₂
        else ⟨.error e, s₁, log₂⟩

/-- `triggerRequest(ctx)` (the request context is opaque to the claims
under verification and is elided). -/
def triggerRequest (s : MState) : StepOut (Option Response) :=
  requestLoop (getActivePlugins s) s []

/-- The status mapping used when a plugin's health result has no
detailed check map. -/
def hstatToCStat : HStat → CStat
  | .healthy => .pass
  | .degraded => .warn
  | .unhealthy => .fail

/-- The loop of `triggerHealthCheck`: aggregate each active plugin's
`onHealthCheck` result into the shared check map and running overall
status (elapsed-time measurements are modelled as 0). -/
def healthLoop : List Plugin → List (String × CheckEntry) → HStat →
    MState → List Ev →
    List (String × CheckEntry) × HStat × MState × List Ev
  | [], cs, ov, s, log => (cs, ov, s, log)
  | p :: ps, cs, ov, s, log =>
    match p.onHealthCheck with
    | none => healthLoop ps cs ov s log
    | some (.ok r) =>
      let cs₁ :=
        match r.checks with
        | some m =>
          m.foldl (fun acc e =>
            mset acc (p.name ++ ":" ++ e.1)
              { e.2 with duration := some (e.2.duration.getD 0) }) cs
        | none => mset cs p.name ⟨hstatToCStat r.status, none, some 0⟩
      let ov₁ :=
        if r.status = .unhealthy then HStat.unhealthy
        else if r.status = .degraded ∧ ov = .healthy then HStat.degraded
        else ov
      healthLoop ps cs₁ ov₁ s log
    | some (.error e) =>
      healthLoop ps
        (mset cs p.name ⟨.fail, some (errText e), some 0⟩)
        HStat.unhealthy
        { s with pluginErrors := mset s.pluginErrors p.name e }
        (log ++ [Ev.pluginError p.name e])

/-- `triggerHealthCheck()`. -/
def triggerHealthCheck (s : MState) : HealthStatus × MState × List Ev :=
  let r := healthLoop (getActivePlugins s) [] .healthy s []
  (⟨r.2.1, r.1, 0⟩, r.2.2.1, r.2.2.2 ++ [Ev.appHealth])

/-- The deactivation loop of `shutdown`: deactivate each plugin,
swallowing any error. -/
def deactLoop : List Plugin → MState → List Ev → MState × List Ev
  | [], s, log => (s, log)
  | p :: ps, s, log =>
    let o := deactivate s p.name
    deactLoop ps o.s (log ++ o.log)

/-- The uninstallation loop of `shutdown`: uninstall every plugin not in
state `uninstalled` or `registered`, swallowing any error. -/
def uninstLoop : List String → MState → List Ev → MState × List Ev
  | [], s, log => (s, log)
  | n :: ns, s, log =>
    let cur := mget s.pluginStates n
    if cur ≠ some .uninstalled ∧ cur ≠ some .registered then
      let o := uninstall s n
      uninstLoop ns o.s (log ++ o.log)
    else uninstLoop ns s log

/-- `shutdown()`: stop trigger, shutdown trigger, deactivate the active
plugins in reverse order, then uninstall the rest.  A throw from
`triggerStop` (possible when `continueOnError` is false) propagates. -/
def shutdown (s : MState) : StepOut Unit :=
  let o₁ := triggerStop s
  match o₁.res with
  | .error e => ⟨.error e, o₁.s, o₁.log⟩
  | .ok _ =>
    let o₂ := triggerShutdown o₁.s
    let acts := (getActivePlugins o₂.s).reverse
    let d := deactLoop acts o₂.s (o₁.log ++ o₂.log)
    let u := uninstLoop (mkeys d.1.plugins) d.1 d.2
    ⟨.ok (), u.1, u.2⟩

end PluginManager

/-! ### Definitions used to state the claims -/

/-- A dependency edge restricted to the requested subset: the edges the
sorting DFS of `topologicalSort` follows. -/
def edgeT (plugins : List (String × Plugin)) (targets : List String)
    (u v : String) : Prop :=
  v ∈ depsOf plugins u ∧ v ∈ targets

instance (plugins : List (String × Plugin)) (targets : List String)
    (u v : String) : Decidable (edgeT plugins targets u v) := by
  unfold edgeT; infer_instance

/-- Reachability along in-subset dependency edges. -/
def reachT (plugins : List (String × Plugin)) (targets : List String)
    (u v : String) : Prop :=
  Relation.ReflTransGen (edgeT plugins targets) u v

/-- A produced ordering is topologically sound: wherever an element `v`
stands, every in-subset dependency of `v` stands strictly earlier. -/
def sortedOK (plugins : List (String × Plugin)) (targets : List String)
    (srt : List String) : Prop :=
  ∀ l₁ v l₂, srt = l₁ ++ v :: l₂ →
    ∀ d, d ∈ depsOf plugins v → d ∈ targets → d ∈ l₁

/-- Names of the `onStop` hook invocations recorded in a log, in order. -/
def stopCalls (log : List Ev) : List String :=
  log.filterMap (fun e =>
    match e with
    | .hookCall n .hkStop => some n
    | _ => none)

/-- Names of the `onShutdown` hook invocations recorded in a log. -/
def shutdownCalls (log : List Ev) : List String :=
  log.filterMap (fun e =>
    match e with
    | .hookCall n .hkShutdown => some n
    | _ => none)

/-- Names of the `onRequest` hook invocations recorded in a log. -/
def requestCalls (log : List Ev) : List String :=
  log.filterMap (fun e =>
    match e with
    | .hookCall n .hkRequest => some n
    | _ => none)

/-- Names of `deactivated` events recorded in a log, in order. -/
def deactEvents (log : List Ev) : List String :=
  log.filterMap (fun e =>
    match e with
    | .deactivated n => some n
    | _ => none)

/-- Names of `activated` events recorded in a log, in order. -/
def activatedEvents (log : List Ev) : List String :=
  log.filterMap (fun e =>
    match e with
    | .activated n => some n
    | _ => none)

/-- The active plugins' names in state-map iteration order. -/
def activeNames (s : MState) : List String :=
  (PluginManager.getActivePlugins s).map (fun p => p.name)

/-- The log entries contributed by one plugin in the `triggerStop` loop. -/
def stopEvsOf (p : Plugin) : List Ev :=
  match p.onStop with
  | none => []
  | some (.ok _) => [Ev.hookCall p.name .hkStop]
  | some (.error e) => [Ev.hookCall p.name .hkStop, Ev.pluginError p.name e]

/-- The log entries contributed by one plugin in the `triggerShutdown`
loop. -/
def shutdownEvsOf (p : Plugin) : List Ev :=
  match p.onShutdown with
  | none => []
  | some (.ok _) => [Ev.hookCall p.name .hkShutdown]
  | some (.error e) =>
    [Ev.hookCall p.name .hkShutdown, Ev.pluginError p.name e]

/-- The error-map update contributed by one plugin in the `triggerStop`
loop. -/
def recordStop (m : List (String × ErrMsg)) (p : Plugin) :
    List (String × ErrMsg) :=
  match p.onStop with
  | some (.error e) => mset m p.name e
  | _ => m

/-- The error-map update contributed by one plugin in the
`triggerShutdown` loop. -/
def recordShutdown (m : List (String × ErrMsg)) (p : Plugin) :
    List (String × ErrMsg) :=
  match p.onShutdown with
  | some (.error e) => mset m p.name e
  | _ => m

/-- A plugin's `onStop` hook throws. -/
def throwsStop (p : Plugin) : Bool :=
  match p.onStop with
  | some (.error _) => true
  | _ => false

/-- A plugin's `onHealthCheck` behaviour counts as unhealthy for the
aggregate: it throws, or it reports `unhealthy`. -/
def healthBad (p : Plugin) : Bool :=
  match p.onHealthCheck with
  | some (.error _) => true
  | some (.ok r) => r.status = HStat.unhealthy
  | none => false

/-- A plugin's `onHealthCheck` behaviour reports `degraded`. -/
def healthDegraded (p : Plugin) : Bool :=
  match p.onHealthCheck with
  | some (.ok r) => r.status = HStat.degraded
  | _ => false

/-- The log entries contributed by one plugin in the `triggerRequest`
loop when it does not short-circuit. -/
def reqEvsOf (p : Plugin) : List Ev :=
  match p.onRequest with
  | none => []
  | some (.ok _) => [Ev.hookCall p.name .hkRequest]
  | some (.error e) => [Ev.hookCall p.name .hkRequest, Ev.pluginError p.name e]

/-- A benign `onRequest` behaviour for the short-circuit claim: the
plugin does not produce a `Response` and does not abort the fan-out
(absent hook, a non-`Response` return, or a throw under
`continueOnError = true`). -/
def reqBenign (flag : Bool) (p : Plugin) : Prop :=
  p.onRequest = none ∨ p.onRequest = some (.ok none) ∨
    (flag = true ∧ ∃ e, p.onRequest = some (.error e))

/-- Invariant of the sorting DFS accumulator: the `visited` set and the
`sorted` output always hold the same names, the output has no
duplicates, and the output is topologically sound so far. -/
def accINV (plugins : List (String × Plugin)) (targets : List String)
    (acc : List String × List String) : Prop :=
  (∀ x, x ∈ acc.1 ↔ x ∈ acc.2) ∧ acc.2.Nodup ∧
    sortedOK plugins targets acc.2

/-- The in-subset dependency graph is acyclic. -/
def acyclicT (plugins : List (String × Plugin)) (targets : List String) :
    Prop :=
  ¬ ∃ n, Relation.TransGen (edgeT plugins targets) n n

/-! ### Concrete registries and manager states used as test inputs -/

/-- Plugin `a` depending on `b`. -/
def cycPa : Plugin := { name := "a", dependencies := ["b"] }

/-- Plugin `b` depending on `a`. -/
def cycPb : Plugin := { name := "b", dependencies := ["a"] }

/-- A two-plugin registry whose dependency graph is the cycle
`a -> b -> a`. -/
def cycPlugins : List (String × Plugin) := [("a", cycPa), ("b", cycPb)]

/-- A manager holding the cyclic registry, both plugins registered,
with the default `continueOnError = true`. -/
def sCyc : MState :=
  { plugins := cycPlugins
    pluginStates := [("a", .registered), ("b", .registered)] }

/-- A plugin with no dependencies. -/
def pX : Plugin := { name := "x" }

/-- A registry whose cycle (`a`, `b`) is disjoint from and unreachable
from `x`. -/
def disjPlugins : List (String × Plugin) :=
  [("x", pX), ("a", cycPa), ("b", cycPb)]

/-- A manager holding `disjPlugins`, everything registered, default
options. -/
def sDisj : MState :=
  { plugins := disjPlugins
    pluginStates :=
      [("x", .registered), ("a", .registered), ("b", .registered)] }

/-- `y` depends on `z`; `x` and `z` are independent of everything. -/
def tieY : Plugin := { name := "y", dependencies := ["z"] }

/-- Independent plugin `x` of the tie-break example. -/
def tieX : Plugin := { name := "x" }

/-- Independent plugin `z` of the tie-break example. -/
def tieZ : Plugin := { name := "z" }

/-- The acyclic registry of the tie-break example. -/
def tiePlugins : List (String × Plugin) :=
  [("y", tieY), ("x", tieX), ("z", tieZ)]

/-- Active plugin whose `onStop` succeeds. -/
def stop2a : Plugin := { name := "a", onStop := some (.ok ()) }

/-- Active plugin whose `onStop` throws. -/
def stop2b : Plugin := { name := "b", onStop := some (.error (.userErr 1)) }

/-- Two active plugins, the later-registered one throwing from `onStop`,
with `continueOnError = false`. -/
def sStop2 : MState :=
  { plugins := [("a", stop2a), ("b", stop2b)]
    pluginStates := [("a", .active), ("b", .active)]
    continueOnError := false }

/-- An active plugin whose `onShutdown` throws. -/
def shutW : Plugin := { name := "w", onShutdown := some (.error (.userErr 2)) }

/-- A manager with one active plugin whose `onShutdown` throws, with
`continueOnError = false`. -/
def sShutW : MState :=
  { plugins := [("w", shutW)]
    pluginStates := [("w", .active)]
    continueOnError := false }

/-- Plugin `a` with succeeding stop/shutdown hooks. -/
def c3pa : Plugin :=
  { name := "a", onStop := some (.ok ()), onShutdown := some (.ok ()) }

/-- Plugin `b` with succeeding stop/shutdown hooks. -/
def c3pb : Plugin :=
  { name := "b", onStop := some (.ok ()), onShutdown := some (.ok ()) }

/-- Register `a` then `b`. -/
def c3s2 : MState :=
  (PluginManager.register
    (PluginManager.register ({} : MState) c3pa false).s c3pb false).s

/-- Install `a` then `b`. -/
def c3s4 : MState :=
  (PluginManager.install (PluginManager.install c3s2 "a").s "b").s

/-- Activate `b` first. -/
def c3s5 : MState := (PluginManager.activate c3s4 "b").s

/-- Then activate `a`: activation order `[b, a]`, registration order
`[a, b]`. -/
def c3s6 : MState := (PluginManager.activate c3s5 "a").s

/-- First request plugin, returning a `Response`. -/
def reqP1 : Plugin := { name := "r1", onRequest := some (.ok (some ⟨200⟩)) }

/-- Second request plugin, also returning a `Response`. -/
def reqP2 : Plugin := { name := "r2", onRequest := some (.ok (some ⟨500⟩)) }

/-- Two active plugins both willing to answer a request. -/
def sReq : MState :=
  { plugins := [("r1", reqP1), ("r2", reqP2)]
    pluginStates := [("r1", .active), ("r2", .active)] }

/-- Health hook reporting `degraded`. -/
def hpDeg : Plugin :=
  { name := "h1", onHealthCheck := some (.ok { status := .degraded }) }

/-- Health hook reporting `healthy` with a detailed check map. -/
def hpChk : Plugin :=
  { name := "h2",
    onHealthCheck :=
      some (.ok { status := .healthy, checks := some [("db", { status := .pass })] }) }

/-- Health hook that throws. -/
def hpErr : Plugin :=
  { name := "h3", onHealthCheck := some (.error (.userErr 9)) }

/-- Health hook reporting plain `healthy`. -/
def hpOk : Plugin :=
  { name := "h4", onHealthCheck := some (.ok { status := .healthy }) }

/-- Degraded, then a throwing hook, then healthy reporters: overall must
be `unhealthy` and stay so. -/
def sHealthU : MState :=
  { plugins := [("h1", hpDeg), ("h3", hpErr), ("h2", hpChk), ("h4", hpOk)]
    pluginStates :=
      [("h1", .active), ("h3", .active), ("h2", .active), ("h4", .active)] }

/-- One degraded and one healthy reporter: overall `degraded`. -/
def sHealthD : MState :=
  { plugins := [("h1", hpDeg), ("h4", hpOk)]
    pluginStates := [("h1", .active), ("h4", .active)] }

/-- A dependency-free plugin for the state-machine examples. -/
def c6p : Plugin := { name := "u" }

/-- `u` in state `installed`. -/
def sInst : MState :=
  { plugins := [("u", c6p)], pluginStates := [("u", .installed)] }

/-- `u` in state `active`. -/
def sActv : MState :=
  { plugins := [("u", c6p)], pluginStates := [("u", .active)] }

/-- `u` in state `uninstalled`. -/
def sUnin : MState :=
  { plugins := [("u", c6p)], pluginStates := [("u", .uninstalled)] }

/-- The `db` plugin of the activation-dependency example. -/
def depDb : Plugin := { name := "db" }

/-- The `auth` plugin declaring a dependency on `db`. -/
def depAuth : Plugin := { name := "auth", dependencies := ["db"] }

/-- A plugin declaring a never-registered dependency. -/
def depGhost : Plugin := { name := "g", dependencies := ["ghost"] }

/-- `db` merely installed: activating `auth` must fail naming `db`. -/
def sAuthI : MState :=
  { plugins := [("db", depDb), ("auth", depAuth)]
    pluginStates := [("db", .installed), ("auth", .installed)] }

/-- `db` active: activating `auth` must succeed. -/
def sAuthA : MState :=
  { plugins := [("db", depDb), ("auth", depAuth)]
    pluginStates := [("db", .active), ("auth", .installed)] }

/-- `g` installed, its dependency never registered. -/
def sGhost : MState :=
  { plugins := [("g", depGhost)], pluginStates := [("g", .installed)] }

/-- First registration of `p`. -/
def regP1 : Plugin := { name := "p", version := "1" }

/-- Conflicting second registration of `p`. -/
def regP2 : Plugin := { name := "p", version := "2" }

/-- A manager with `p` registered once. -/
def sReg : MState := (PluginManager.register ({} : MState) regP1 false).s

/-! ### Lemmas about association maps -/

theorem mhas_iff_mem_mkeys {α : Type} (l : List (String × α)) (k : String) :
    mhas l k = true ↔ k ∈ mkeys l := by
  induction l with
  | nil => simp [mhas, mkeys]
  | cons e t ih =>
    simp only [mhas, mkeys, List.any_cons, List.map_cons, List.mem_cons,
      Bool.or_eq_true, decide_eq_true_eq] at *
    constructor
    · rintro (h | h)
      · exact Or.inl h.symm
      · exact Or.inr (ih.mp h)
    · rintro (h | h)
      · exact Or.inl h.symm
      · exact Or.inr (ih.mpr h)

theorem mget_isSome_of_mhas {α : Type} (l : List (String × α)) (k : String)
    (h : mhas l k = true) : ∃ v, mget l k = some v := by
  induction l with
  | nil => simp [mhas] at h
  | cons e t ih =>
    simp only [mhas, List.any_cons, Bool.or_eq_true, decide_eq_true_eq] at h
    by_cases he : e.1 = k
    · exact ⟨e.2, by simp [mget, List.find?, he]⟩
    · rcases h with h | h
      · exact absurd h he
      · rcases ih h with ⟨v, hv⟩
        refine ⟨v, ?_⟩
        simpa [mget, List.find?_cons, he] using hv

theorem mhas_of_mget_eq_some {α : Type} (l : List (String × α)) (k : String)
    (v : α) (h : mget l k = some v) : mhas l k = true := by
  induction l with
  | nil => simp [mget] at h
  | cons e t ih =>
    by_cases he : e.1 = k
    · simp [mhas, he]
    · simp only [mget, List.find?_cons, he, decide_False] at h
      simp only [mhas, List.any_cons, Bool.or_eq_true, decide_eq_true_eq]
      exact Or.inr (ih (by simpa [mget] using h))

theorem mget_mset_self {α : Type} (l : List (String × α)) (k : String)
    (v : α) : mget (mset l k v) k = some v := by
  induction l with
  | nil => simp [mset, mget, List.find?]
  | cons e t ih =>
    by_cases he : e.1 = k
    · simp [mset, he, mget, List.find?]
    · simp only [mset, he, if_false]
      simpa [mget, List.find?_cons, he] using ih

theorem mget_mset_ne {α : Type} (l : List (String × α)) (k k' : String)
    (v : α) (h : k ≠ k') : mget (mset l k v) k' = mget l k' := by
  induction l with
  | nil => simp [mset, mget, List.find?, h]
  | cons e t ih =>
    by_cases he : e.1 = k
    · simp [mset, he, mget, List.find?_cons, h, he ▸ h]
    · simp only [mset, he, if_false]
      by_cases he' : e.1 = k'
      · simp [mget, List.find?_cons, he']
      · simpa [mget, List.find?_cons, he'] using ih

theorem mget_mdel_ne {α : Type} (l : List (String × α)) (k k' : String)
    (h : k ≠ k') (hn : (mkeys l).Nodup) :
    mget (mdel l k) k' = mget l k' := by
  induction l with
  | nil => simp [mdel]
  | cons e t ih =>
    simp only [mkeys, List.map_cons, List.nodup_cons] at hn
    by_cases he : e.1 = k
    · simp only [mdel, he, if_true]
      by_cases he' : e.1 = k'
      · exact absurd (he' ▸ he) (Ne.symm (he' ▸ h))
      · simp [mget, List.find?_cons, he']
    · simp only [mdel, he, if_false]
      by_cases he' : e.1 = k'
      · simp [mget, List.find?_cons, he']
      · simp only [mget, List.find?_cons, he', decide_False]
        exact ih hn.2

theorem mget_mdel_self {α : Type} (l : List (String × α)) (k : String)
    (hn : (mkeys l).Nodup) : mget (mdel l k) k = none := by
  induction l with
  | nil => simp [mdel, mget]
  | cons e t ih =>
    simp only [mkeys, List.map_cons, List.nodup_cons] at hn
    by_cases he : e.1 = k
    · cases (mget t k).eq_none_or_eq_some with
      | inl h => simpa [mdel, he] using h
      | inr h =>
        rcases h with ⟨v, hv⟩
        have := mhas_of_mget_eq_some t k v hv
        rw [mhas_iff_mem_mkeys] at this
        exact absurd (he ▸ this) hn.1
    · simp only [mdel, he, if_false, mget, List.find?_cons, decide_False]
      exact ih hn.2

/-! ### Soundness of `detectCircularDependency`

A returned path is non-empty, its adjacent pairs are declared-dependency
edges, and it starts and ends at the same plugin — hence it witnesses a
genuine cycle. -/

/-- The well-formedness a returned cycle path enjoys. -/
def goodCycle (plugins : List (String × Plugin)) (c : List String) : Prop :=
  2 ≤ c.length ∧ List.Chain' (edge plugins) c ∧ c.head? = c.getLast?

theorem head?_dropWhile_ne (l : List String) (a : String) (h : a ∈ l) :
    (l.dropWhile (fun x => x ≠ a)).head? = some a := by
  induction l with
  | nil => cases h
  | cons x t ih =>
    by_cases hx : x = a
    · subst hx; simp [List.dropWhile]
    · rcases List.mem_cons.mp h with h' | h'
      · exact absurd h'.symm hx
      · simpa [List.dropWhile, hx] using ih h'

theorem dfsCDeps_some_spec (plugins : List (String × Plugin))
    (recFn : List String → String → Option (List String) × List String) :
    ∀ deps,
      (∀ visited d c v', d ∈ deps → mhas plugins d = true →
        recFn visited d = (some c, v') → goodCycle plugins c) →
      ∀ visited c v',
        dfsCDeps plugins recFn visited deps = (some c, v') →
        goodCycle plugins c := by
  intro deps
  induction deps with
  | nil => intro _ visited c v' h; simp [dfsCDeps] at h
  | cons d ds ih =>
    intro hrec visited c v' h
    simp only [dfsCDeps] at h
    by_cases hd : mhas plugins d
    · rw [if_pos hd] at h
      rcases hrf : recFn visited d with ⟨r, v₁⟩
      rw [hrf] at h
      cases r with
      | some c₁ =>
        simp only [Prod.mk.injEq, Option.some.injEq] at h
        obtain ⟨h₁, _⟩ := h
        exact h₁ ▸ hrec visited d c₁ v₁ (List.mem_cons_self d ds) hd hrf
      | none =>
        exact ih (fun vis x c₀ v₀ hx => hrec vis x c₀ v₀ (List.mem_cons_of_mem d hx))
          v₁ c v' h
    · rw [if_neg hd] at h
      exact ih (fun vis x c₀ v₀ hx => hrec vis x c₀ v₀ (List.mem_cons_of_mem d hx))
        visited c v' h

theorem dfsC_some_spec (plugins : List (String × Plugin)) :
    ∀ fuel path visited name c v',
      List.Chain' (edge plugins) (path ++ [name]) →
      dfsC plugins fuel path visited name = (some c, v') →
      goodCycle plugins c := by
  intro fuel
  induction fuel with
  | zero => intro path visited name c v' _ h; simp [dfsC] at h
  | succ fuel ih =>
    intro path visited name c v' hchain h
    simp only [dfsC] at h
    by_cases hp : name ∈ path
    · rw [if_pos hp] at h
      simp only [Prod.mk.injEq, Option.some.injEq] at h
      obtain ⟨h₁, _⟩ := h
      subst h₁
      -- the cycle is the stack suffix starting at `name`, closed with
      -- `name` itself
      have hsplit : path.takeWhile (fun x => x ≠ name) ++
          path.dropWhile (fun x => x ≠ name) = path :=
        List.takeWhile_append_dropWhile _ _
      have hhead : (path.dropWhile (fun x => x ≠ name)).head? = some name :=
        head?_dropWhile_ne path name hp
      have hne : path.dropWhile (fun x => x ≠ name) ≠ [] := by
        intro hnil; rw [hnil] at hhead; simp at hhead
      have hchain' :
          List.Chain' (edge plugins)
            (path.dropWhile (fun x => x ≠ name) ++ [name]) := by
        have heq : path ++ [name] =
            path.takeWhile (fun x => x ≠ name) ++
              (path.dropWhile (fun x => x ≠ name) ++ [name]) := by
          rw [← List.append_assoc, hsplit]
        rw [heq] at hchain
        exact ((List.chain'_append).mp hchain).2.1
      refine ⟨?_, hchain', ?_⟩
      · have : 1 ≤ (path.dropWhile (fun x => x ≠ name)).length :=
          List.length_pos.mpr hne
        simp only [List.length_append, List.length_singleton]
        omega
      · rw [List.head?_append_of_ne_nil _ hne, hhead,
          List.getLast?_append_of_ne_nil _
            (by simp : ([name] : List String) ≠ [])]
        simp
    · rw [if_neg hp] at h
      by_cases hv : name ∈ visited
      · rw [if_pos hv] at h; simp at h
      · rw [if_neg hv] at h
        refine dfsCDeps_some_spec plugins _ (depsOf plugins name) ?_
          (visited ++ [name]) c v' h
        intro vis d c₀ v₀ hdmem hd hrf
        have hedge : edge plugins name d := ⟨hdmem, hd⟩
        have hchain₂ :
            List.Chain' (edge plugins) ((path ++ [name]) ++ [d]) := by
          rw [List.chain'_append]
          refine ⟨hchain, List.chain'_singleton d, ?_⟩
          intro x hx y hy
          simp only [List.getLast?_append_of_ne_nil _
            (by simp : ([name] : List String) ≠ [])] at hx
          simp only [List.getLast?_singleton, Option.mem_def,
            Option.some.injEq] at hx
          simp only [List.head?_cons, Option.mem_def, Option.some.injEq] at hy
          subst hx; subst hy
          exact hedge
        exact ih (path ++ [name]) vis d c₀ v₀ hchain₂ hrf

theorem detectOuter_some_spec (plugins : List (String × Plugin)) :
    ∀ roots visited c,
      detectOuter plugins roots visited = some c →
      goodCycle plugins c := by
  intro roots
  induction roots with
  | nil => intro visited c h; simp [detectOuter] at h
  | cons k ks ih =>
    intro visited c h
    simp only [detectOuter] at h
    by_cases hk : k ∈ visited
    · rw [if_pos hk] at h
      exact ih visited c h
    · rw [if_neg hk] at h
      rcases hd : dfsC plugins (plugins.length + 1) [] visited k with ⟨r, v₁⟩
      rw [hd] at h
      cases r with
      | some c₁ =>
        simp only [Option.some.injEq] at h
        subst h
        exact dfsC_some_spec plugins (plugins.length + 1) [] visited k c₁ v₁
          (by simp) hd
      | none => exact ih v₁ c h

/-- Soundness: any path returned by `detectCircularDependency` is a
well-formed cycle witness. -/
theorem detect_some_goodCycle (plugins : List (String × Plugin))
    (c : List String) (h : detectCircularDependency plugins = some c) :
    goodCycle plugins c :=
  detectOuter_some_spec plugins (mkeys plugins) [] c h

theorem chain_getLast_transGen {α : Type} (r : α → α → Prop) :
    ∀ (l : List α) (a : α), List.Chain r a l → ∀ (h : l ≠ []),
      Relation.TransGen r a (l.getLast h) := by
  intro l
  induction l with
  | nil => intro a _ h; exact absurd rfl h
  | cons b t ih =>
    intro a hch _
    rcases List.chain_cons.mp hch with ⟨hab, hbt⟩
    cases t with
    | nil => simpa using Relation.TransGen.single hab
    | cons x xs =>
      have htail := ih b hbt (by simp)
      have hgl : (b :: x :: xs).getLast (by simp) =
          (x :: xs).getLast (by simp) := by
        simp [List.getLast_cons]
      rw [hgl]
      exact (Relation.TransGen.single hab).trans htail

/-- A well-formed cycle witness yields a genuine cycle in the registered
dependency graph. -/
theorem goodCycle_hasCycle (plugins : List (String × Plugin))
    (c : List String) (h : goodCycle plugins c) : hasCycle plugins := by
  rcases h with ⟨hlen, hchain, hhl⟩
  cases c with
  | nil => simp at hlen
  | cons a t =>
    cases t with
    | nil => simp at hlen
    | cons b u =>
      have hch : List.Chain (edge plugins) a (b :: u) := hchain
      have htg := chain_getLast_transGen (edge plugins) (b :: u) a hch (by simp)
      have hlast : (b :: u).getLast (by simp) = a := by
        have h₁ : (a :: b :: u).head? = some a := rfl
        have h₂ : (a :: b :: u).getLast? =
            some ((b :: u).getLast (by simp)) := by
          rw [List.getLast?_eq_getLast _ (by simp)]
          simp [List.getLast_cons]
        rw [h₁, h₂] at hhl
        exact (Option.some.injEq _ _ ▸ hhl.symm) ▸ rfl
      exact ⟨a, hlast ▸ htg⟩

/-! ### Invariants of the sorting DFS (`topologicalSort`) -/

theorem append_singleton_inj {α : Type} (l l' : List α) (a b : α)
    (h : l ++ [a] = l' ++ [b]) : l = l' ∧ a = b := by
  have hr := congrArg List.reverse h
  simp only [List.reverse_append, List.reverse_singleton, List.singleton_append,
    List.cons.injEq] at hr
  exact ⟨by simpa using congrArg List.reverse hr.2, hr.1⟩

theorem sortedOK_append_singleton (plugins : List (String × Plugin))
    (targets : List String) (srt : List String) (v₀ : String)
    (h₁ : sortedOK plugins targets srt)
    (h₂ : ∀ d, d ∈ depsOf plugins v₀ → d ∈ targets → d ∈ srt) :
    sortedOK plugins targets (srt ++ [v₀]) := by
  intro l₁ v l₂ heq d hd ht
  rcases l₂.eq_nil_or_concat with rfl | ⟨l₂', b, rfl⟩
  · rcases append_singleton_inj srt l₁ v₀ v heq with ⟨hl, hv⟩
    subst hl; subst hv
    exact h₂ d hd ht
  · have heq' : srt ++ [v₀] = (l₁ ++ v :: l₂') ++ [b] := by
      simpa [List.append_assoc] using heq
    rcases append_singleton_inj srt (l₁ ++ v :: l₂') v₀ b heq' with ⟨hl, _⟩
    exact h₁ l₁ v l₂' hl d hd ht

theorem dfsTDeps_ok_spec (plugins : List (String × Plugin))
    (targets : List String) (visiting' : List String)
    (recFn : List String × List String → String →
      Except ErrMsg (List String × List String))
    (hrec : ∀ acc name acc', name ∈ targets → accINV plugins targets acc →
      recFn acc name = .ok acc' →
      accINV plugins targets acc' ∧
      (∃ Δ, acc'.2 = acc.2 ++ Δ ∧ ∀ x ∈ Δ, x ∈ targets ∧ x ∉ visiting' ∧
        reachT plugins targets name x) ∧
      name ∈ acc'.1) :
    ∀ deps acc acc', accINV plugins targets acc →
      dfsTDeps targets recFn acc deps = .ok acc' →
      accINV plugins targets acc' ∧
      (∃ Δ, acc'.2 = acc.2 ++ Δ ∧ ∀ x ∈ Δ, x ∈ targets ∧ x ∉ visiting' ∧
        ∃ d, d ∈ deps ∧ d ∈ targets ∧ reachT plugins targets d x) ∧
      (∀ d, d ∈ deps → d ∈ targets → d ∈ acc'.1) := by
  intro deps
  induction deps with
  | nil =>
    intro acc acc' hinv h
    simp only [dfsTDeps, Except.ok.injEq] at h
    subst h
    exact ⟨hinv, ⟨[], by simp⟩, by simp⟩
  | cons d ds ih =>
    intro acc acc' hinv h
    simp only [dfsTDeps] at h
    by_cases hd : d ∈ targets
    · rw [if_pos hd] at h
      rcases hrf : recFn acc d with e | acc₁
      · rw [hrf] at h; cases h
      · rw [hrf] at h
        obtain ⟨hinv₁, ⟨Δ₁, hΔ₁, hΔ₁p⟩, hdmem⟩ :=
          hrec acc d acc₁ hd hinv hrf
        obtain ⟨hinv₂, ⟨Δ₂, hΔ₂, hΔ₂p⟩, hds⟩ := ih acc₁ acc' hinv₁ h
        refine ⟨hinv₂, ⟨Δ₁ ++ Δ₂, by rw [hΔ₂, hΔ₁, List.append_assoc], ?_⟩, ?_⟩
        · intro x hx
          rcases List.mem_append.mp hx with hx | hx
          · obtain ⟨ht, hv, hr⟩ := hΔ₁p x hx
            exact ⟨ht, hv, d, List.mem_cons_self d ds, hd, hr⟩
          · obtain ⟨ht, hv, d', hd', ht', hr⟩ := hΔ₂p x hx
            exact ⟨ht, hv, d', List.mem_cons_of_mem d hd', ht', hr⟩
        · intro d' hd' ht'
          rcases List.mem_cons.mp hd' with rfl | hd'
          · -- membership in the visited set is monotone along the loop
            have h₁ : d' ∈ acc₁.2 := (hinv₁.1 d').mp hdmem
            have h₂ : d' ∈ acc'.2 := by
              rw [hΔ₂]; exact List.mem_append_left _ h₁
            exact (hinv₂.1 d').mpr h₂
          · exact hds d' hd' ht'
    · rw [if_neg hd] at h
      obtain ⟨hinv₂, ⟨Δ₂, hΔ₂, hΔ₂p⟩, hds⟩ := ih acc acc' hinv h
      refine ⟨hinv₂, ⟨Δ₂, hΔ₂, ?_⟩, ?_⟩
      · intro x hx
        obtain ⟨ht, hv, d', hd', ht', hr⟩ := hΔ₂p x hx
        exact ⟨ht, hv, d', List.mem_cons_of_mem d hd', ht', hr⟩
      · intro d' hd' ht'
        rcases List.mem_cons.mp hd' with rfl | hd'
        · exact absurd ht' hd
        · exact hds d' hd' ht'

theorem dfsT_ok_spec (plugins : List (String × Plugin))
    (targets : List String) :
    ∀ fuel visiting acc name acc', name ∈ targets →
      accINV plugins targets acc →
      dfsT plugins targets fuel visiting acc name = .ok acc' →
      accINV plugins targets acc' ∧
      (∃ Δ, acc'.2 = acc.2 ++ Δ ∧ ∀ x ∈ Δ, x ∈ targets ∧ x ∉ visiting ∧
        reachT plugins targets name x) ∧
      name ∈ acc'.1 := by
  intro fuel
  induction fuel with
  | zero => intro visiting acc name acc' _ _ h; simp [dfsT] at h
  | succ fuel ih =>
    intro visiting acc name acc' hname hinv h
    simp only [dfsT] at h
    by_cases hvis : name ∈ visiting
    · rw [if_pos hvis] at h; cases h
    · rw [if_neg hvis] at h
      by_cases hv : name ∈ acc.1
      · rw [if_pos hv] at h
        simp only [Except.ok.injEq] at h
        subst h
        exact ⟨hinv, ⟨[], by simp⟩, hv⟩
      · rw [if_neg hv] at h
        rcases hloop : dfsTDeps targets
            (dfsT plugins targets fuel (visiting ++ [name])) acc
            (depsOf plugins name) with e | accL
        · rw [hloop] at h; cases h
        · rw [hloop] at h
          rcases haccL : accL with ⟨vL, srtL⟩
          rw [haccL] at h
          simp only [Except.ok.injEq] at h
          subst h
          rw [haccL] at hloop
          obtain ⟨hinvL, ⟨ΔL, hΔL, hΔLp⟩, hdeps⟩ :=
            dfsTDeps_ok_spec plugins targets (visiting ++ [name]) _
              (fun acc₀ nm acc₀' hnm hinv₀ hh =>
                ih (visiting ++ [name]) acc₀ nm acc₀' hnm hinv₀ hh)
              (depsOf plugins name) acc (vL, srtL) hinv hloop
          dsimp only at hinvL hΔL hΔLp hdeps
          have hnotin : name ∉ srtL := by
            rw [hΔL]
            intro hmem
            rcases List.mem_append.mp hmem with hmem | hmem
            · exact hv ((hinv.1 name).mpr hmem)
            · have := (hΔLp name hmem).2.1
              exact this (List.mem_append_right _ (List.mem_singleton.mpr rfl))
          refine ⟨⟨?_, ?_, ?_⟩, ⟨ΔL ++ [name], by
            simp only [hΔL, List.append_assoc], ?_⟩, ?_⟩
          · intro x
            simp only [List.mem_append, List.mem_singleton]
            constructor
            · rintro (hx | hx)
              · exact Or.inl ((hinvL.1 x).mp hx)
              · exact Or.inr hx
            · rintro (hx | hx)
              · exact Or.inl ((hinvL.1 x).mpr hx)
              · exact Or.inr hx
          · simpa [List.nodup_append] using ⟨hinvL.2.1, hnotin⟩
          · refine sortedOK_append_singleton plugins targets srtL name
              hinvL.2.2 ?_
            intro d hd ht
            exact (hinvL.1 d).mp (hdeps d hd ht)
          · intro x hx
            rcases List.mem_append.mp hx with hx | hx
            · obtain ⟨ht, hvv, d, hd, hdt, hr⟩ := hΔLp x hx
              refine ⟨ht, fun hc => hvv (List.mem_append_left _ hc), ?_⟩
              exact Relation.ReflTransGen.head ⟨hd, hdt⟩ hr
            · rw [List.mem_singleton.mp hx]
              exact ⟨hname, hvis, Relation.ReflTransGen.refl⟩
          · exact List.mem_append_right _ (List.mem_singleton.mpr rfl)

/-! ### Success of the sorting DFS on acyclic graphs -/

theorem nodup_subset_length_le (l t : List String) (h : l.Nodup)
    (hsub : ∀ x ∈ l, x ∈ t) : l.length ≤ t.dedup.length := by
  have h1 : l.toFinset ⊆ t.toFinset := by
    intro x hx
    simp only [List.mem_toFinset] at *
    exact hsub x hx
  have h2 := Finset.card_le_card h1
  rw [List.toFinset_card_of_nodup h, List.card_toFinset] at h2
  exact h2

theorem visiting_cycle_absurd (plugins : List (String × Plugin))
    (targets : List String) (visiting : List String) (name : String)
    (hacy : acyclicT plugins targets)
    (hchain : List.Chain' (edgeT plugins targets) (visiting ++ [name]))
    (hvis : name ∈ visiting) : False := by
  rcases List.append_of_mem hvis with ⟨l₁, l₂, rfl⟩
  have hchain' :
      List.Chain' (edgeT plugins targets) (name :: (l₂ ++ [name])) := by
    have heq : (l₁ ++ name :: l₂) ++ [name] =
        l₁ ++ (name :: (l₂ ++ [name])) := by simp
    rw [heq] at hchain
    exact ((List.chain'_append).mp hchain).2.1
  have hch : List.Chain (edgeT plugins targets) name (l₂ ++ [name]) := hchain'
  have htg := chain_getLast_transGen (edgeT plugins targets) (l₂ ++ [name])
    name hch (by simp)
  have hlast : (l₂ ++ [name]).getLast (by simp) = name := by
    simp [List.getLast_append]
  rw [hlast] at htg
  exact hacy ⟨name, htg⟩

theorem dfsTDeps_ok_total (targets : List String)
    (recFn : List String × List String → String →
      Except ErrMsg (List String × List String)) :
    ∀ deps,
      (∀ acc d, d ∈ deps → d ∈ targets →
        ∃ acc', recFn acc d = .ok acc') →
      ∀ acc, ∃ acc', dfsTDeps targets recFn acc deps = .ok acc' := by
  intro deps
  induction deps with
  | nil => intro _ acc; exact ⟨acc, rfl⟩
  | cons d ds ih =>
    intro hrec acc
    simp only [dfsTDeps]
    by_cases hd : d ∈ targets
    · rw [if_pos hd]
      obtain ⟨acc₁, h₁⟩ := hrec acc d (List.mem_cons_self d ds) hd
      rw [h₁]
      exact ih (fun a x hx => hrec a x (List.mem_cons_of_mem d hx)) acc₁
    · rw [if_neg hd]
      exact ih (fun a x hx => hrec a x (List.mem_cons_of_mem d hx)) acc

theorem dfsT_ok_of_acyclic (plugins : List (String × Plugin))
    (targets : List String) (hacy : acyclicT plugins targets) :
    ∀ fuel visiting acc name, name ∈ targets →
      List.Chain' (edgeT plugins targets) (visiting ++ [name]) →
      visiting.Nodup → (∀ x ∈ visiting, x ∈ targets) →
      targets.dedup.length + 1 ≤ fuel + visiting.length →
      ∃ acc', dfsT plugins targets fuel visiting acc name = .ok acc' := by
  intro fuel
  induction fuel with
  | zero =>
    intro visiting acc name hname _ hnd hsub hfuel
    exfalso
    have := nodup_subset_length_le visiting targets hnd hsub
    omega
  | succ fuel ih =>
    intro visiting acc name hname hchain hnd hsub hfuel
    simp only [dfsT]
    by_cases hvis : name ∈ visiting
    · exact absurd hvis
        (fun h => visiting_cycle_absurd plugins targets visiting name
          hacy hchain h)
    · rw [if_neg hvis]
      by_cases hv : name ∈ acc.1
      · rw [if_pos hv]; exact ⟨acc, rfl⟩
      · rw [if_neg hv]
        obtain ⟨accL, hloop⟩ :=
          dfsTDeps_ok_total targets
            (dfsT plugins targets fuel (visiting ++ [name]))
            (depsOf plugins name)
            (fun acc₀ d hd ht => by
              refine ih (visiting ++ [name]) acc₀ d ht ?_ ?_ ?_ ?_
              · rw [List.chain'_append]
                refine ⟨hchain, List.chain'_singleton d, ?_⟩
                intro x hx y hy
                simp only [List.getLast?_append_of_ne_nil _
                  (by simp : ([name] : List String) ≠ []),
                  List.getLast?_singleton, Option.mem_def,
                  Option.some.injEq] at hx
                simp only [List.head?_cons, Option.mem_def,
                  Option.some.injEq] at hy
                subst hx; subst hy
                exact ⟨hd, ht⟩
              · simpa [List.nodup_append] using ⟨hnd, hvis⟩
              · intro x hx
                rcases List.mem_append.mp hx with hx | hx
                · exact hsub x hx
                · rw [List.mem_singleton.mp hx]; exact hname
              · simp only [List.length_append, List.length_singleton]
                omega)
            acc
        rw [hloop]
        rcases accL with ⟨vL, srtL⟩
        exact ⟨(vL ++ [name], srtL ++ [name]), rfl⟩

theorem sortOuter_ok_of_acyclic (plugins : List (String × Plugin))
    (targets : List String) (fuel : Nat)
    (hacy : acyclicT plugins targets)
    (hfuel : targets.dedup.length + 1 ≤ fuel) :
    ∀ roots acc, (∀ r ∈ roots, r ∈ targets) →
      ∃ acc', sortOuter plugins targets fuel roots acc = .ok acc' := by
  intro roots
  induction roots with
  | nil => intro acc _; exact ⟨acc, rfl⟩
  | cons k ks ih =>
    intro acc hsub
    simp only [sortOuter]
    by_cases hk : k ∈ acc.1
    · rw [if_pos hk]
      exact ih acc (fun r hr => hsub r (List.mem_cons_of_mem k hr))
    · rw [if_neg hk]
      obtain ⟨acc₁, h₁⟩ := dfsT_ok_of_acyclic plugins targets hacy fuel []
        acc k (hsub k (List.mem_cons_self k ks)) (by simp) (by simp)
        (by simp) (by simpa using hfuel)
      rw [h₁]
      exact ih acc₁ (fun r hr => hsub r (List.mem_cons_of_mem k hr))

theorem sortOuter_ok_spec (plugins : List (String × Plugin))
    (targets : List String) (fuel : Nat) :
    ∀ roots acc acc', (∀ r ∈ roots, r ∈ targets) →
      accINV plugins targets acc →
      sortOuter plugins targets fuel roots acc = .ok acc' →
      accINV plugins targets acc' ∧
      (∃ Δ, acc'.2 = acc.2 ++ Δ ∧ ∀ x ∈ Δ, x ∈ targets ∧
        ∃ r, r ∈ roots ∧ reachT plugins targets r x) ∧
      (∀ r ∈ roots, r ∈ acc'.1) := by
  intro roots
  induction roots with
  | nil =>
    intro acc acc' _ hinv h
    simp only [sortOuter, Except.ok.injEq] at h
    subst h
    exact ⟨hinv, ⟨[], by simp⟩, by simp⟩
  | cons k ks ih =>
    intro acc acc' hsub hinv h
    simp only [sortOuter] at h
    by_cases hk : k ∈ acc.1
    · rw [if_pos hk] at h
      obtain ⟨hinv', ⟨Δ, hΔ, hΔp⟩, hroots⟩ :=
        ih acc acc' (fun r hr => hsub r (List.mem_cons_of_mem k hr)) hinv h
      refine ⟨hinv', ⟨Δ, hΔ, ?_⟩, ?_⟩
      · intro x hx
        obtain ⟨ht, r, hr, hreach⟩ := hΔp x hx
        exact ⟨ht, r, List.mem_cons_of_mem k hr, hreach⟩
      · intro r hr
        rcases List.mem_cons.mp hr with rfl | hr
        · have h₁ : r ∈ acc.2 := (hinv.1 r).mp hk
          have h₂ : r ∈ acc'.2 := by
            rw [hΔ]; exact List.mem_append_left _ h₁
          exact (hinv'.1 r).mpr h₂
        · exact hroots r hr
    · rw [if_neg hk] at h
      rcases hd : dfsT plugins targets fuel [] acc k with e | acc₁
      · rw [hd] at h; cases h
      · rw [hd] at h
        obtain ⟨hinv₁, ⟨Δ₁, hΔ₁, hΔ₁p⟩, hkmem⟩ :=
          dfsT_ok_spec plugins targets fuel [] acc k acc₁
            (hsub k (List.mem_cons_self k ks)) hinv hd
        obtain ⟨hinv₂, ⟨Δ₂, hΔ₂, hΔ₂p⟩, hroots⟩ :=
          ih acc₁ acc' (fun r hr => hsub r (List.mem_cons_of_mem k hr))
            hinv₁ h
        refine ⟨hinv₂, ⟨Δ₁ ++ Δ₂, by rw [hΔ₂, hΔ₁, List.append_assoc], ?_⟩, ?_⟩
        · intro x hx
          rcases List.mem_append.mp hx with hx | hx
          · obtain ⟨ht, _, hreach⟩ := hΔ₁p x hx
            exact ⟨ht, k, List.mem_cons_self k ks, hreach⟩
          · obtain ⟨ht, r, hr, hreach⟩ := hΔ₂p x hx
            exact ⟨ht, r, List.mem_cons_of_mem k hr, hreach⟩
        · intro r hr
          rcases List.mem_cons.mp hr with rfl | hr
          · have h₁ : r ∈ acc₁.2 := (hinv₁.1 r).mp hkmem
            have h₂ : r ∈ acc'.2 := by
              rw [hΔ₂]; exact List.mem_append_left _ h₁
            exact (hinv₂.1 r).mpr h₂
          · exact hroots r hr

/-! ### A successful full sort certifies acyclicity -/

theorem indexOf_decomp (srt l₁ : List String) (a : String) (l₂ : List String)
    (hnd : srt.Nodup) (heq : srt = l₁ ++ a :: l₂) :
    srt.indexOf a = l₁.length := by
  subst heq
  have ha : a ∉ l₁ := by
    rcases List.nodup_append.mp hnd with ⟨_, _, hdisj⟩
    intro hmem
    exact hdisj hmem (List.mem_cons_self a l₂)
  rw [List.indexOf_append_of_not_mem ha, List.indexOf_cons_self]
  simp

theorem sortedOK_lt (plugins : List (String × Plugin))
    (targets : List String) (srt : List String) (hnd : srt.Nodup)
    (hOK : sortedOK plugins targets srt) (u d : String) (hu : u ∈ srt)
    (he : edgeT plugins targets u d) : srt.indexOf d < srt.indexOf u := by
  rcases List.append_of_mem hu with ⟨l₁, l₂, heq⟩
  have hd : d ∈ l₁ := hOK l₁ u l₂ heq d he.1 he.2
  rw [indexOf_decomp srt l₁ u l₂ hnd heq]
  rw [heq, List.indexOf_append_of_mem hd]
  exact List.indexOf_lt_length.mpr hd

theorem transGen_edgeT_target_mem (plugins : List (String × Plugin))
    (targets : List String) (a b : String)
    (h : Relation.TransGen (edgeT plugins targets) a b) : b ∈ targets := by
  induction h with
  | single h => exact h.2
  | tail _ h _ => exact h.2

theorem sortedOK_acyclic (plugins : List (String × Plugin))
    (targets : List String) (srt : List String) (hnd : srt.Nodup)
    (hOK : sortedOK plugins targets srt)
    (hcov : ∀ t ∈ targets, t ∈ srt) : acyclicT plugins targets := by
  rintro ⟨n, htg⟩
  have key : ∀ a b, Relation.TransGen (edgeT plugins targets) a b →
      a ∈ srt → srt.indexOf b < srt.indexOf a := by
    intro a b htg'
    induction htg' with
    | single h =>
      intro ha
      exact sortedOK_lt plugins targets srt hnd hOK a _ ha h
    | tail htg'' h ih =>
      intro ha
      rename_i b' _
      have hb' : b' ∈ srt :=
        hcov b' (transGen_edgeT_target_mem plugins targets a b' htg'')
      exact lt_trans (sortedOK_lt plugins targets srt hnd hOK b' _ hb' h)
        (ih ha)
  have hn : n ∈ srt :=
    hcov n (transGen_edgeT_target_mem plugins targets n n htg)
  exact absurd (key n n htg hn) (lt_irrefl _)

/-! ### Relating the two edge relations -/

theorem edgeT_mhas_src (plugins : List (String × Plugin))
    (targets : List String) (a b : String) (h : edgeT plugins targets a b) :
    mhas plugins a = true := by
  rcases h with ⟨hmem, _⟩
  unfold depsOf at hmem
  rcases hg : mget plugins a with _ | p
  · rw [hg] at hmem; simp at hmem
  · exact mhas_of_mget_eq_some plugins a p hg

theorem transGen_edgeT_to_edge (plugins : List (String × Plugin))
    (targets : List String) (a b : String)
    (h : Relation.TransGen (edgeT plugins targets) a b)
    (hb : mhas plugins b = true) :
    Relation.TransGen (edge plugins) a b := by
  induction h with
  | single h => exact Relation.TransGen.single ⟨h.1, hb⟩
  | tail htg h ih =>
    rename_i b' _
    have hb' : mhas plugins b' = true := edgeT_mhas_src plugins targets b' _ h
    exact Relation.TransGen.tail (ih hb') ⟨h.1, hb⟩

/-- A cycle in the subset-restricted graph is a cycle in the registered
graph: every node on it has outgoing dependencies, hence is
registered. -/
theorem cycleT_hasCycle (plugins : List (String × Plugin))
    (targets : List String) (n : String)
    (h : Relation.TransGen (edgeT plugins targets) n n) :
    hasCycle plugins := by
  rcases Relation.TransGen.head'_iff.mp h with ⟨b, hstep, _⟩
  have hn : mhas plugins n = true := edgeT_mhas_src plugins targets n b hstep
  exact ⟨n, transGen_edgeT_to_edge plugins targets n n h hn⟩

theorem acyclicT_of_not_hasCycle (plugins : List (String × Plugin))
    (targets : List String) (h : ¬ hasCycle plugins) :
    acyclicT plugins targets := by
  rintro ⟨n, htg⟩
  exact h (cycleT_hasCycle plugins targets n htg)

theorem transGen_edge_to_edgeT (plugins : List (String × Plugin))
    (a b : String) (h : Relation.TransGen (edge plugins) a b) :
    Relation.TransGen (edgeT plugins (mkeys plugins)) a b := by
  refine Relation.TransGen.mono ?_ h
  intro x y hxy
  exact ⟨hxy.1, (mhas_iff_mem_mkeys plugins y).mp hxy.2⟩

/-! ### Completeness of `detectCircularDependency`

The cycle-detection DFS and the sorting DFS traverse the graph
identically when the subset is the full key set: the detector's
`visited` set corresponds to the sorter's `visited` set united with the
current stack.  Hence a run in which the detector finds no cycle yields
a successful full topological sort, which certifies acyclicity. -/

theorem dfsCDeps_none_bisim (plugins : List (String × Plugin))
    (targets : List String)
    (htarg : ∀ x, mhas plugins x = true ↔ x ∈ targets)
    (path' : List String)
    (recFnC : List String → String → Option (List String) × List String)
    (recFnT : List String × List String → String →
      Except ErrMsg (List String × List String))
    (hrec : ∀ visD acc d v₁, mhas plugins d = true →
      (∀ x, x ∈ visD ↔ x ∈ acc.1 ∨ x ∈ path') →
      recFnC visD d = (none, v₁) →
      ∃ acc₁, recFnT acc d = .ok acc₁ ∧
        ∀ x, x ∈ v₁ ↔ x ∈ acc₁.1 ∨ x ∈ path') :
    ∀ deps visD acc v', (∀ x, x ∈ visD ↔ x ∈ acc.1 ∨ x ∈ path') →
      dfsCDeps plugins recFnC visD deps = (none, v') →
      ∃ acc', dfsTDeps targets recFnT acc deps = .ok acc' ∧
        ∀ x, x ∈ v' ↔ x ∈ acc'.1 ∨ x ∈ path' := by
  intro deps
  induction deps with
  | nil =>
    intro visD acc v' hcorr h
    simp only [dfsCDeps, Prod.mk.injEq] at h
    exact ⟨acc, rfl, h.2 ▸ hcorr⟩
  | cons d ds ih =>
    intro visD acc v' hcorr h
    simp only [dfsCDeps] at h
    simp only [dfsTDeps]
    by_cases hd : mhas plugins d = true
    · rw [if_pos hd] at h
      rw [if_pos ((htarg d).mp hd)]
      rcases hrf : recFnC visD d with ⟨r, v₁⟩
      rw [hrf] at h
      cases r with
      | some c => simp at h
      | none =>
        obtain ⟨acc₁, hok, hcorr₁⟩ := hrec visD acc d v₁ hd hcorr hrf
        rw [hok]
        exact ih v₁ acc₁ v' hcorr₁ h
    · rw [if_neg hd] at h
      rw [if_neg (fun hmem => hd ((htarg d).mpr hmem))]
      exact ih visD acc v' hcorr h

theorem dfsC_none_bisim (plugins : List (String × Plugin))
    (targets : List String)
    (htarg : ∀ x, mhas plugins x = true ↔ x ∈ targets) :
    ∀ fuel path visitedD acc name v',
      (∀ x, x ∈ visitedD ↔ x ∈ acc.1 ∨ x ∈ path) →
      path.Nodup → (∀ x ∈ path, mhas plugins x = true) →
      mhas plugins name = true →
      targets.dedup.length + 1 ≤ fuel + path.length →
      dfsC plugins fuel path visitedD name = (none, v') →
      ∃ acc', dfsT plugins targets fuel path acc name = .ok acc' ∧
        ∀ x, x ∈ v' ↔ x ∈ acc'.1 ∨ x ∈ path := by
  intro fuel
  induction fuel with
  | zero =>
    intro path visitedD acc name v' _ hnd hsub _ hfuel _
    exfalso
    have hsub' : ∀ x ∈ path, x ∈ targets :=
      fun x hx => (htarg x).mp (hsub x hx)
    have := nodup_subset_length_le path targets hnd hsub'
    omega
  | succ fuel ih =>
    intro path visitedD acc name v' hcorr hnd hsub hname hfuel h
    simp only [dfsC] at h
    simp only [dfsT]
    by_cases hp : name ∈ path
    · rw [if_pos hp] at h; simp at h
    · rw [if_neg hp] at h
      rw [if_neg hp]
      by_cases hv : name ∈ visitedD
      · rw [if_pos hv] at h
        simp only [Prod.mk.injEq] at h
        have hacc : name ∈ acc.1 := by
          rcases (hcorr name).mp hv with h' | h'
          · exact h'
          · exact absurd h' hp
        rw [if_pos hacc]
        exact ⟨acc, rfl, h.2 ▸ hcorr⟩
      · rw [if_neg hv] at h
        have hnacc : name ∉ acc.1 := fun hmem =>
          hv ((hcorr name).mpr (Or.inl hmem))
        rw [if_neg hnacc]
        have hcorr₀ : ∀ x, x ∈ visitedD ++ [name] ↔
            x ∈ acc.1 ∨ x ∈ path ++ [name] := by
          intro x
          simp only [List.mem_append, List.mem_singleton]
          rw [hcorr x]
          tauto
        obtain ⟨accL, hok, hcorrL⟩ :=
          dfsCDeps_none_bisim plugins targets htarg (path ++ [name])
            (dfsC plugins fuel (path ++ [name]))
            (dfsT plugins targets fuel (path ++ [name]))
            (fun visD₀ acc₀ d v₁ hd hcorr₀' hrf =>
              ih (path ++ [name]) visD₀ acc₀ d v₁ hcorr₀'
                (by simpa [List.nodup_append] using ⟨hnd, hp⟩)
                (by
                  intro x hx
                  rcases List.mem_append.mp hx with hx | hx
                  · exact hsub x hx
                  · rw [List.mem_singleton.mp hx]; exact hname)
                hd
                (by simp only [List.length_append, List.length_singleton]
                    omega)
                hrf)
            (depsOf plugins name) (visitedD ++ [name]) acc v' hcorr₀ h
        rcases haccL : accL with ⟨vL, srtL⟩
        rw [haccL] at hok hcorrL
        rw [hok]
        refine ⟨(vL ++ [name], srtL ++ [name]), rfl, ?_⟩
        intro x
        rw [hcorrL x]
        simp only [List.mem_append, List.mem_singleton]
        tauto

theorem detectOuter_none_bisim (plugins : List (String × Plugin)) :
    ∀ roots visitedD acc, (∀ r ∈ roots, mhas plugins r = true) →
      (∀ x, x ∈ visitedD ↔ x ∈ acc.1) →
      detectOuter plugins roots visitedD = none →
      ∃ acc', sortOuter plugins (mkeys plugins) (plugins.length + 1)
        roots acc = .ok acc' := by
  intro roots
  induction roots with
  | nil => intro _ acc _ _ _; exact ⟨acc, rfl⟩
  | cons k ks ih =>
    intro visitedD acc hsub hcorr h
    simp only [detectOuter] at h
    simp only [sortOuter]
    by_cases hk : k ∈ visitedD
    · rw [if_pos hk] at h
      rw [if_pos ((hcorr k).mp hk)]
      exact ih visitedD acc (fun r hr => hsub r (List.mem_cons_of_mem k hr))
        hcorr h
    · rw [if_neg hk] at h
      rw [if_neg (fun hmem => hk ((hcorr k).mpr hmem))]
      rcases hd : dfsC plugins (plugins.length + 1) [] visitedD k with ⟨r, v₁⟩
      rw [hd] at h
      cases r with
      | some c => cases h
      | none =>
        have hfuel : (mkeys plugins).dedup.length + 1 ≤
            (plugins.length + 1) + ([] : List String).length := by
          have h₁ : (mkeys plugins).dedup.length ≤ (mkeys plugins).length :=
            (List.dedup_sublist (mkeys plugins)).length_le
          have h₂ : (mkeys plugins).length = plugins.length :=
            List.length_map _ _
          simp only [List.length_nil]
          omega
        obtain ⟨acc₁, hok, hcorr₁⟩ :=
          dfsC_none_bisim plugins (mkeys plugins)
            (fun x => mhas_iff_mem_mkeys plugins x)
            (plugins.length + 1) [] visitedD acc k v₁
            (by intro x; rw [hcorr x]; simp)
            (by simp) (by simp) (hsub k (List.mem_cons_self k ks)) hfuel hd
        rw [hok]
        exact ih v₁ acc₁ (fun r hr => hsub r (List.mem_cons_of_mem k hr))
          (by intro x; rw [hcorr₁ x]; simp) h

/-- Completeness: if the detector reports no cycle, the registered
dependency graph is acyclic. -/
theorem detect_none_not_hasCycle (plugins : List (String × Plugin))
    (h : detectCircularDependency plugins = none) : ¬ hasCycle plugins := by
  obtain ⟨acc', hok⟩ :=
    detectOuter_none_bisim plugins (mkeys plugins) [] ([], [])
      (fun r hr => (mhas_iff_mem_mkeys plugins r).mpr hr)
      (by intro x; simp) h
  obtain ⟨hinv', _, hroots⟩ :=
    sortOuter_ok_spec plugins (mkeys plugins) (plugins.length + 1)
      (mkeys plugins) ([], []) acc' (fun r hr => hr)
      ⟨by intro x; simp, List.nodup_nil, by
        intro l₁ v l₂ heq
        exact absurd heq (by simp)⟩ hok
  have hacy : acyclicT plugins (mkeys plugins) := by
    refine sortedOK_acyclic plugins (mkeys plugins) acc'.2 hinv'.2.1
      hinv'.2.2 ?_
    intro t ht
    exact (hinv'.1 t).mp (hroots t ht)
  rintro ⟨n, htg⟩
  exact hacy ⟨n, transGen_edge_to_edgeT plugins n n htg⟩

/-- Every cyclic registry is detected: `detectCircularDependency`
returns some path. -/
theorem detect_some_of_hasCycle (plugins : List (String × Plugin))
    (h : hasCycle plugins) :
    ∃ c, detectCircularDependency plugins = some c := by
  rcases hd : detectCircularDependency plugins with _ | c
  · exact absurd h (detect_none_not_hasCycle plugins hd)
  · exact ⟨c, rfl⟩

/-! ### `topologicalSort`: top-level characterisations -/

/-- `topologicalSort` validates the whole map first: any detected cycle
aborts it with the cycle error, for every requested subset. -/
theorem topologicalSort_error_of_detect (plugins : List (String × Plugin))
    (c : List String) (h : detectCircularDependency plugins = some c)
    (pluginNames : Option (List String)) :
    topologicalSort plugins pluginNames =
      .error (.circularDependency c (c.headD "")) := by
  simp only [topologicalSort, h]

/-- Likewise for missing dependencies anywhere in the map. -/
theorem topologicalSort_error_of_missing (plugins : List (String × Plugin))
    (hc : detectCircularDependency plugins = none)
    (hm : detectMissingDependencies plugins ≠ [])
    (pluginNames : Option (List String)) :
    topologicalSort plugins pluginNames =
      .error (.missingDependency (detectMissingDependencies plugins)) := by
  simp only [topologicalSort, hc, if_pos hm]

theorem sortOuter_append (plugins : List (String × Plugin))
    (targets : List String) (fuel : Nat) :
    ∀ a b acc, sortOuter plugins targets fuel (a ++ b) acc =
      match sortOuter plugins targets fuel a acc with
      | .error e => .error e
      | .ok acc₁ => sortOuter plugins targets fuel b acc₁ := by
  intro a
  induction a with
  | nil => intro b acc; simp [sortOuter]
  | cons k ks ih =>
    intro b acc
    by_cases hk : k ∈ acc.1
    · simp only [List.cons_append, sortOuter, if_pos hk]
      exact ih b acc
    · simp only [List.cons_append, sortOuter, if_neg hk]
      rcases hd : dfsT plugins targets fuel [] acc k with e | acc₁
      · rfl
      · exact ih b acc₁

/-- Success of `topologicalSort` on an acyclic registry with no missing
dependencies, together with everything the sorted output guarantees:
it is a duplicate-free list with the same members as the requested
subset; every in-subset dependency precedes its dependent; every
element is reachable from some subset entry; and an element `x` listed
before `y` in the subset precedes `y` in the output unless `y` is
reachable (along in-subset dependency edges) from `x` or from an
earlier subset entry. -/
theorem topologicalSort_ok_spec (plugins : List (String × Plugin))
    (subset : List String) (hacy : ¬ hasCycle plugins)
    (hm : detectMissingDependencies plugins = []) :
    ∃ out, topologicalSort plugins (some subset) = .ok out ∧
      out.Nodup ∧ (∀ x, x ∈ out ↔ x ∈ subset) ∧
      (∀ v d, v ∈ out → d ∈ depsOf plugins v → d ∈ subset →
        out.indexOf d < out.indexOf v) ∧
      (∀ t₁ x t₂ y t₃, subset = t₁ ++ x :: t₂ ++ y :: t₃ →
        (∀ r, r ∈ t₁ ++ [x] → ¬ reachT plugins subset r y) →
        x ∈ out ∧ y ∈ out ∧ out.indexOf x < out.indexOf y) := by
  have hdet : detectCircularDependency plugins = none := by
    rcases hd : detectCircularDependency plugins with _ | c
    · rfl
    · exact absurd
        (goodCycle_hasCycle plugins c (detect_some_goodCycle plugins c hd))
        hacy
  have hacyT : acyclicT plugins subset :=
    acyclicT_of_not_hasCycle plugins subset hacy
  have hfuel : subset.dedup.length + 1 ≤ subset.length + 1 := by
    have := (List.dedup_sublist subset).length_le
    omega
  obtain ⟨acc', hok⟩ :=
    sortOuter_ok_of_acyclic plugins subset (subset.length + 1) hacyT hfuel
      subset ([], []) (fun r hr => hr)
  have hinv₀ : accINV plugins subset ([], []) :=
    ⟨by intro x; simp, List.nodup_nil, by
      intro l₁ v l₂ heq
      exact absurd heq (by simp)⟩
  obtain ⟨hinv', ⟨Δ, hΔ, hΔp⟩, hroots⟩ :=
    sortOuter_ok_spec plugins subset (subset.length + 1) subset ([], [])
      acc' (fun r hr => hr) hinv₀ hok
  simp only [List.nil_append] at hΔ
  refine ⟨acc'.2, ?_, hinv'.2.1, ?_, ?_, ?_⟩
  · simp only [topologicalSort, hdet, hm, ne_eq, not_true_eq_false,
      if_false, Option.getD_some]
    rw [hok]
  · intro x
    constructor
    · intro hx
      rw [hΔ] at hx
      exact (hΔp x hx).1
    · intro hx
      exact (hinv'.1 x).mp (hroots x hx)
  · intro v d hv hd hds
    exact sortedOK_lt plugins subset acc'.2 hinv'.2.1 hinv'.2.2 v d hv
      ⟨hd, hds⟩
  · intro t₁ x t₂ y t₃ hsplit hnoreach
    have hx : x ∈ subset := by rw [hsplit]; simp
    have hy : y ∈ subset := by rw [hsplit]; simp
    have hxout : x ∈ acc'.2 := (hinv'.1 x).mp (hroots x hx)
    have hyout : y ∈ acc'.2 := (hinv'.1 y).mp (hroots y hy)
    refine ⟨hxout, hyout, ?_⟩
    -- split the outer loop at `x`
    have hsplit' : subset = (t₁ ++ [x]) ++ (t₂ ++ y :: t₃) := by
      rw [hsplit]; simp
    have hsplitrun := sortOuter_append plugins subset (subset.length + 1)
      (t₁ ++ [x]) (t₂ ++ y :: t₃) ([], [])
    rw [← hsplit', hok] at hsplitrun
    rcases hA : sortOuter plugins subset (subset.length + 1) (t₁ ++ [x])
        ([], []) with e | accA
    · rw [hA] at hsplitrun; simp at hsplitrun
    · rw [hA] at hsplitrun
      simp only at hsplitrun
      replace hsplitrun := hsplitrun.symm
      obtain ⟨hinvA, ⟨ΔA, hΔA, hΔAp⟩, hrootsA⟩ :=
        sortOuter_ok_spec plugins subset (subset.length + 1) (t₁ ++ [x])
          ([], []) accA
          (fun r hr => by rw [hsplit']; exact List.mem_append_left _ hr)
          hinv₀ hA
      simp only [List.nil_append] at hΔA
      obtain ⟨_, ⟨ΔB, hΔB, _⟩, _⟩ :=
        sortOuter_ok_spec plugins subset (subset.length + 1)
          (t₂ ++ y :: t₃) accA acc'
          (fun r hr => by rw [hsplit']; exact List.mem_append_right _ hr)
          hinvA hsplitrun
      have hxA : x ∈ accA.2 :=
        (hinvA.1 x).mp (hrootsA x (by simp))
      have hyA : y ∉ accA.2 := by
        intro hmem
        rw [hΔA] at hmem
        obtain ⟨_, r, hr, hreach⟩ := hΔAp y hmem
        exact hnoreach r hr hreach
      rw [hΔB, List.indexOf_append_of_mem hxA,
        List.indexOf_append_of_not_mem hyA]
      have := List.indexOf_lt_length.mpr hxA
      omega

open PluginManager

/-! ### The stop / shutdown / request fan-out loops -/

theorem stopCalls_append (l₁ l₂ : List Ev) :
    stopCalls (l₁ ++ l₂) = stopCalls l₁ ++ stopCalls l₂ :=
  List.filterMap_append l₁ l₂ _

theorem shutdownCalls_append (l₁ l₂ : List Ev) :
    shutdownCalls (l₁ ++ l₂) = shutdownCalls l₁ ++ shutdownCalls l₂ :=
  List.filterMap_append l₁ l₂ _

theorem requestCalls_append (l₁ l₂ : List Ev) :
    requestCalls (l₁ ++ l₂) = requestCalls l₁ ++ requestCalls l₂ :=
  List.filterMap_append l₁ l₂ _

theorem deactEvents_append (l₁ l₂ : List Ev) :
    deactEvents (l₁ ++ l₂) = deactEvents l₁ ++ deactEvents l₂ :=
  List.filterMap_append l₁ l₂ _

theorem stopCalls_flatMap (ps : List Plugin) :
    stopCalls (ps.flatMap stopEvsOf) =
      (ps.filter (fun p => p.onStop.isSome)).map (fun p => p.name) := by
  induction ps with
  | nil => rfl
  | cons p ps ih =>
    simp only [List.flatMap_cons, stopCalls_append]
    rcases hs : p.onStop with _ | beh
    · simp only [stopEvsOf, hs, List.filter_cons, Option.isSome_none,
        Bool.false_eq_true, if_false]
      simpa [stopCalls] using ih
    · cases beh <;>
        simp_all [stopEvsOf, stopCalls, List.filter_cons] <;> rfl

theorem shutdownCalls_flatMap (ps : List Plugin) :
    shutdownCalls (ps.flatMap shutdownEvsOf) =
      (ps.filter (fun p => p.onShutdown.isSome)).map (fun p => p.name) := by
  induction ps with
  | nil => rfl
  | cons p ps ih =>
    simp only [List.flatMap_cons, shutdownCalls_append]
    rcases hs : p.onShutdown with _ | beh
    · simp only [shutdownEvsOf, hs, List.filter_cons, Option.isSome_none,
        Bool.false_eq_true, if_false]
      simpa [shutdownCalls] using ih
    · cases beh <;>
        simp_all [shutdownEvsOf, shutdownCalls, List.filter_cons] <;> rfl

theorem stopLoop_ok_of_flag (ps : List Plugin) :
    ∀ (s : MState) (log : List Ev), s.continueOnError = true →
      stopLoop ps s log =
        ⟨.ok (), { s with pluginErrors := ps.foldl recordStop s.pluginErrors },
          log ++ ps.flatMap stopEvsOf ++ [Ev.appStop]⟩ := by
  induction ps with
  | nil => intro s log _; simp [stopLoop]
  | cons p ps ih =>
    intro s log hflag
    rcases hs : p.onStop with _ | beh
    · simp only [stopLoop, hs]
      rw [ih s log hflag]
      simp [stopEvsOf, hs, recordStop, List.foldl_cons]
    · cases beh with
      | ok u =>
        simp only [stopLoop, hs]
        rw [ih s (log ++ [Ev.hookCall p.name HK.hkStop]) hflag]
        simp [stopEvsOf, hs, recordStop, List.foldl_cons]
      | error e =>
        simp only [stopLoop, hs]
        rw [if_pos hflag,
          ih { s with pluginErrors := mset s.pluginErrors p.name e } _ hflag]
        simp [stopEvsOf, hs, recordStop, List.foldl_cons]

theorem shutdownLoop_spec (ps : List Plugin) :
    ∀ (s : MState) (log : List Ev),
      shutdownLoop ps s log =
        ⟨.ok (),
          { s with pluginErrors := ps.foldl recordShutdown s.pluginErrors },
          log ++ ps.flatMap shutdownEvsOf ++ [Ev.appShutdown]⟩ := by
  induction ps with
  | nil => intro s log; simp [shutdownLoop]
  | cons p ps ih =>
    intro s log
    rcases hs : p.onShutdown with _ | beh
    · simp only [shutdownLoop, hs]
      rw [ih s log]
      simp [shutdownEvsOf, hs, recordShutdown, List.foldl_cons]
    · cases beh with
      | ok u =>
        simp only [shutdownLoop, hs]
        rw [ih s (log ++ [Ev.hookCall p.name HK.hkShutdown])]
        simp [shutdownEvsOf, hs, recordShutdown, List.foldl_cons]
      | error e =>
        simp only [shutdownLoop, hs]
        rw [ih { s with pluginErrors := mset s.pluginErrors p.name e } _]
        simp [shutdownEvsOf, hs, recordShutdown, List.foldl_cons]

theorem stopLoop_no_throw (ps : List Plugin) :
    ∀ (s : MState) (log : List Ev), (∀ p ∈ ps, throwsStop p = false) →
      stopLoop ps s log =
        ⟨.ok (), s, log ++ ps.flatMap stopEvsOf ++ [Ev.appStop]⟩ := by
  induction ps with
  | nil => intro s log _; simp [stopLoop]
  | cons p ps ih =>
    intro s log hnothrow
    rcases hs : p.onStop with _ | beh
    · simp only [stopLoop, hs]
      rw [ih s log (fun q hq => hnothrow q (List.mem_cons_of_mem p hq))]
      simp [stopEvsOf, hs]
    · cases beh with
      | ok u =>
        simp only [stopLoop, hs]
        rw [ih s (log ++ [Ev.hookCall p.name HK.hkStop])
          (fun q hq => hnothrow q (List.mem_cons_of_mem p hq))]
        simp [stopEvsOf, hs]
      | error e =>
        have := hnothrow p (List.mem_cons_self p ps)
        simp [throwsStop, hs] at this

theorem shutdownLoop_no_throw (ps : List Plugin) :
    ∀ (s : MState) (log : List Ev),
      (∀ p ∈ ps, ∀ e, p.onShutdown ≠ some (.error e)) →
      shutdownLoop ps s log =
        ⟨.ok (), s, log ++ ps.flatMap shutdownEvsOf ++ [Ev.appShutdown]⟩ := by
  induction ps with
  | nil => intro s log _; simp [shutdownLoop]
  | cons p ps ih =>
    intro s log hnothrow
    rcases hs : p.onShutdown with _ | beh
    · simp only [shutdownLoop, hs]
      rw [ih s log (fun q hq => hnothrow q (List.mem_cons_of_mem p hq))]
      simp [shutdownEvsOf, hs]
    · cases beh with
      | ok u =>
        simp only [shutdownLoop, hs]
        rw [ih s (log ++ [Ev.hookCall p.name HK.hkShutdown])
          (fun q hq => hnothrow q (List.mem_cons_of_mem p hq))]
        simp [shutdownEvsOf, hs]
      | error e =>
        exact absurd hs (by
          have := hnothrow p (List.mem_cons_self p ps) e
          simpa using this)

theorem stopLoop_abort (pre : List Plugin) :
    ∀ (q : Plugin) (rest : List Plugin) (s : MState) (log : List Ev) (e : ErrMsg),
      s.continueOnError = false →
      (∀ r ∈ pre, throwsStop r = false) →
      q.onStop = some (.error e) →
      stopLoop (pre ++ q :: rest) s log =
        ⟨.error e, { s with pluginErrors := mset s.pluginErrors q.name e },
          log ++ pre.flatMap stopEvsOf ++
            [Ev.hookCall q.name HK.hkStop, Ev.pluginError q.name e]⟩ := by
  induction pre with
  | nil =>
    intro q rest s log e hflag _ hq
    simp only [List.nil_append, stopLoop, hq, hflag, Bool.false_eq_true,
      if_false]
    simp [stopEvsOf]
  | cons p pre ih =>
    intro q rest s log e hflag hpre hq
    rcases hs : p.onStop with _ | beh
    · simp only [List.cons_append, stopLoop, hs, List.append_eq]
      rw [ih q rest s log e hflag
        (fun r hr => hpre r (List.mem_cons_of_mem p hr)) hq]
      simp [stopEvsOf, hs]
    · cases beh with
      | ok u =>
        simp only [List.cons_append, stopLoop, hs, List.append_eq]
        rw [ih q rest s (log ++ [Ev.hookCall p.name HK.hkStop]) e hflag
          (fun r hr => hpre r (List.mem_cons_of_mem p hr)) hq]
        simp [stopEvsOf, hs]
      | error e' =>
        have := hpre p (List.mem_cons_self p pre)
        simp [throwsStop, hs] at this

/-! ### The request fan-out loop -/

theorem requestLoop_first (pre : List Plugin) :
    ∀ (p : Plugin) (post : List Plugin) (s : MState) (log : List Ev)
      (resp : Response),
      (∀ r ∈ pre, reqBenign s.continueOnError r) →
      p.onRequest = some (.ok (some resp)) →
      ∃ s', requestLoop (pre ++ p :: post) s log =
        ⟨.ok (some resp), s',
          log ++ pre.flatMap reqEvsOf ++
            [Ev.hookCall p.name HK.hkRequest]⟩ := by
  induction pre with
  | nil =>
    intro p post s log resp _ hp
    refine ⟨s, ?_⟩
    simp only [List.nil_append, requestLoop, hp]
    simp
  | cons r pre ih =>
    intro p post s log resp hpre hp
    have hr := hpre r (List.mem_cons_self r pre)
    rcases hr with hr | hr | ⟨hflag, e, hr⟩
    · simp only [List.cons_append, requestLoop, hr, List.append_eq]
      obtain ⟨s', hs'⟩ := ih p post s log resp
        (fun q hq => hpre q (List.mem_cons_of_mem r hq)) hp
      refine ⟨s', ?_⟩
      rw [hs']
      simp [reqEvsOf, hr]
    · simp only [List.cons_append, requestLoop, hr, List.append_eq]
      obtain ⟨s', hs'⟩ := ih p post s
        (log ++ [Ev.hookCall r.name HK.hkRequest]) resp
        (fun q hq => hpre q (List.mem_cons_of_mem r hq)) hp
      refine ⟨s', ?_⟩
      rw [hs']
      simp [reqEvsOf, hr]
    · simp only [List.cons_append, requestLoop, hr, List.append_eq]
      rw [if_pos hflag]
      obtain ⟨s', hs'⟩ := ih p post
        { s with pluginErrors := mset s.pluginErrors r.name e }
        (log ++ [Ev.hookCall r.name HK.hkRequest] ++
          [Ev.pluginError r.name e]) resp
        (fun q hq => hpre q (List.mem_cons_of_mem r hq)) hp
      refine ⟨s', ?_⟩
      rw [hs']
      simp [reqEvsOf, hr]

theorem requestCalls_flatMap_benign (flag : Bool) (ps : List Plugin)
    (hps : ∀ p ∈ ps, reqBenign flag p) :
    requestCalls (ps.flatMap reqEvsOf) =
      (ps.filter (fun p => p.onRequest.isSome)).map (fun p => p.name) := by
  induction ps with
  | nil => rfl
  | cons p ps ih =>
    have ihp := ih (fun q hq => hps q (List.mem_cons_of_mem p hq))
    simp only [List.flatMap_cons, requestCalls_append]
    rcases hs : p.onRequest with _ | beh
    · simp only [reqEvsOf, hs, List.filter_cons, Option.isSome_none,
        Bool.false_eq_true, if_false]
      simpa [requestCalls] using ihp
    · cases beh <;>
        simp_all [reqEvsOf, requestCalls, List.filter_cons] <;> rfl

/-! ### The deactivation loop of `shutdown` -/

theorem deactLoop_spec (ps : List Plugin) :
    ∀ (s : MState) (log : List Ev),
      (∀ p ∈ ps, mget s.plugins p.name ≠ none ∧
        mget s.pluginStates p.name = some .active) →
      (ps.map (fun p => p.name)).Nodup →
      ∃ s', deactLoop ps s log =
        (s', log ++ ps.map (fun p => Ev.deactivated p.name)) := by
  induction ps with
  | nil => intro s log _ _; exact ⟨s, by simp [deactLoop]⟩
  | cons p ps ih =>
    intro s log hcond hnd
    obtain ⟨hp, hst⟩ := hcond p (List.mem_cons_self p ps)
    rcases hg : mget s.plugins p.name with _ | q
    · exact absurd hg hp
    · have hdeact : deactivate s p.name =
          ⟨.ok (),
            { s with
              pluginStates := mset s.pluginStates p.name .inactive
              pluginErrors := mdel s.pluginErrors p.name },
            [Ev.deactivated p.name]⟩ := by
        simp only [deactivate, hg, hst]
        simp
      simp only [List.map_cons, List.nodup_cons] at hnd
      simp only [deactLoop, hdeact]
      obtain ⟨s', hs'⟩ := ih
        { s with
          pluginStates := mset s.pluginStates p.name .inactive
          pluginErrors := mdel s.pluginErrors p.name }
        (log ++ [Ev.deactivated p.name])
        (fun q hq => by
          obtain ⟨h₁, h₂⟩ := hcond q (List.mem_cons_of_mem p hq)
          refine ⟨h₁, ?_⟩
          have hne : p.name ≠ q.name := by
            intro heq
            exact hnd.1 (heq ▸ List.mem_map_of_mem (fun r => r.name) hq)
          simpa [mget_mset_ne _ _ _ _ hne] using h₂)
        hnd.2
      exact ⟨s', by rw [hs']; simp⟩

/-! ### Recording hook errors in the error map -/

theorem foldl_recordShutdown_notin (ps : List Plugin) :
    ∀ (m : List (String × ErrMsg)) (k : String),
      (∀ q ∈ ps, q.name ≠ k) →
      mget (ps.foldl recordShutdown m) k = mget m k := by
  induction ps with
  | nil => intro m k _; rfl
  | cons q ps ih =>
    intro m k hne
    simp only [List.foldl_cons]
    rw [ih _ k (fun r hr => hne r (List.mem_cons_of_mem q hr))]
    unfold recordShutdown
    rcases q.onShutdown with _ | beh
    · rfl
    · cases beh with
      | ok u => rfl
      | error e =>
        exact mget_mset_ne m q.name k e (hne q (List.mem_cons_self q ps))

theorem foldl_recordShutdown_mget (ps : List Plugin) :
    ∀ (m : List (String × ErrMsg)) (p : Plugin) (e : ErrMsg),
      p ∈ ps → (ps.map (fun q => q.name)).Nodup →
      p.onShutdown = some (.error e) →
      mget (ps.foldl recordShutdown m) p.name = some e := by
  induction ps with
  | nil => intro _ _ _ h; cases h
  | cons q ps ih =>
    intro m p e hmem hnd hp
    simp only [List.map_cons, List.nodup_cons] at hnd
    rcases List.mem_cons.mp hmem with rfl | hmem
    · simp only [List.foldl_cons]
      rw [foldl_recordShutdown_notin ps _ p.name
        (fun r hr heq => hnd.1 (heq ▸ List.mem_map_of_mem (fun x => x.name) hr))]
      unfold recordShutdown
      rw [hp]
      exact mget_mset_self m p.name e
    · exact ih _ p e hmem hnd.2 hp

theorem foldl_recordStop_notin (ps : List Plugin) :
    ∀ (m : List (String × ErrMsg)) (k : String),
      (∀ q ∈ ps, q.name ≠ k) →
      mget (ps.foldl recordStop m) k = mget m k := by
  induction ps with
  | nil => intro m k _; rfl
  | cons q ps ih =>
    intro m k hne
    simp only [List.foldl_cons]
    rw [ih _ k (fun r hr => hne r (List.mem_cons_of_mem q hr))]
    unfold recordStop
    rcases q.onStop with _ | beh
    · rfl
    · cases beh with
      | ok u => rfl
      | error e =>
        exact mget_mset_ne m q.name k e (hne q (List.mem_cons_self q ps))

theorem foldl_recordStop_mget (ps : List Plugin) :
    ∀ (m : List (String × ErrMsg)) (p : Plugin) (e : ErrMsg),
      p ∈ ps → (ps.map (fun q => q.name)).Nodup →
      p.onStop = some (.error e) →
      mget (ps.foldl recordStop m) p.name = some e := by
  induction ps with
  | nil => intro _ _ _ h; cases h
  | cons q ps ih =>
    intro m p e hmem hnd hp
    simp only [List.map_cons, List.nodup_cons] at hnd
    rcases List.mem_cons.mp hmem with rfl | hmem
    · simp only [List.foldl_cons]
      rw [foldl_recordStop_notin ps _ p.name
        (fun r hr heq => hnd.1 (heq ▸ List.mem_map_of_mem (fun x => x.name) hr))]
      unfold recordStop
      rw [hp]
      exact mget_mset_self m p.name e
    · exact ih _ p e hmem hnd.2 hp

/-! ### Active plugins -/

theorem mem_getActivePlugins (s : MState) (p : Plugin) :
    p ∈ getActivePlugins s ↔
      ∃ k, (k, PluginState.active) ∈ s.pluginStates ∧
        mget s.plugins k = some p := by
  unfold getActivePlugins
  rw [List.mem_filterMap]
  constructor
  · rintro ⟨e, he, hfe⟩
    by_cases h2 : e.2 = PluginState.active
    · rw [if_pos h2] at hfe
      exact ⟨e.1, by rw [← h2]; exact he, hfe⟩
    · rw [if_neg h2] at hfe; cases hfe
  · rintro ⟨k, hk, hget⟩
    exact ⟨(k, PluginState.active), hk, by simpa using hget⟩

theorem mget_of_mem_nodup {α : Type} (l : List (String × α)) (k : String)
    (v : α) (hmem : (k, v) ∈ l) (hnd : (mkeys l).Nodup) :
    mget l k = some v := by
  induction l with
  | nil => cases hmem
  | cons e t ih =>
    simp only [mkeys, List.map_cons, List.nodup_cons] at hnd
    rcases List.mem_cons.mp hmem with rfl | hmem
    · simp [mget, List.find?_cons]
    · by_cases he : e.1 = k
      · exact absurd (he ▸ List.mem_map_of_mem (fun x => x.1) hmem) hnd.1
      · simp only [mget, List.find?_cons, he, decide_False]
        exact ih hmem hnd.2

theorem activeNames_sublist (s : MState)
    (hwf : ∀ k q, mget s.plugins k = some q → q.name = k) :
    (activeNames s).Sublist (mkeys s.pluginStates) := by
  unfold activeNames getActivePlugins mkeys
  generalize s.pluginStates = l
  induction l with
  | nil => simp
  | cons e t ih =>
    simp only [List.filterMap_cons]
    by_cases h2 : e.2 = PluginState.active
    · rw [if_pos h2]
      rcases hg : mget s.plugins e.1 with _ | q
      · exact ih.trans (List.sublist_cons_self _ _)
      · simp only [List.map_cons]
        have : q.name = e.1 := hwf e.1 q hg
        rw [this]
        exact ih.cons₂ e.1
    · rw [if_neg h2]
      exact ih.trans (List.sublist_cons_self _ _)

theorem uninstLoop_log_extend (ns : List String) :
    ∀ (s : MState) (log : List Ev),
      ∃ s' tail, uninstLoop ns s log = (s', log ++ tail) := by
  induction ns with
  | nil => intro s log; exact ⟨s, [], by simp [uninstLoop]⟩
  | cons n ns ih =>
    intro s log
    simp only [uninstLoop]
    by_cases hc : mget s.pluginStates n ≠ some .uninstalled ∧
        mget s.pluginStates n ≠ some .registered
    · rw [if_pos hc]
      obtain ⟨s', tail, h⟩ := ih (uninstall s n).s (log ++ (uninstall s n).log)
      exact ⟨s', (uninstall s n).log ++ tail, by rw [h]; simp⟩
    · rw [if_neg hc]
      exact ih s log

theorem deactivate_log_shape (s : MState) (n : String) :
    ∀ ev ∈ (deactivate s n).log, ∃ nm, ev = Ev.deactivated nm := by
  intro ev hev
  rcases hg : mget s.plugins n with _ | p
  · simp [deactivate, hg] at hev
  · by_cases hc : mget s.pluginStates n = some PluginState.active
    · simp [deactivate, hg, hc] at hev
      exact ⟨n, hev⟩
    · simp [deactivate, hg, hc] at hev

theorem uninstall_log_shape (s : MState) (n : String) :
    ∀ ev ∈ (uninstall s n).log,
      (∃ nm, ev = Ev.deactivated nm) ∨ (∃ nm, ev = Ev.uninstalled nm) := by
  intro ev hev
  rcases hg : mget s.plugins n with _ | p
  · simp [uninstall, hg] at hev
  · by_cases hu : mget s.pluginStates n = some PluginState.uninstalled
    · simp [uninstall, hg, hu] at hev
    · by_cases ha : mget s.pluginStates n = some PluginState.active
      · simp [uninstall, hg, hu, ha, deactivate] at hev
        rcases hev with hev | hev
        · exact Or.inl ⟨n, hev⟩
        · exact Or.inr ⟨n, hev⟩
      · simp [uninstall, hg, hu, ha] at hev
        exact Or.inr ⟨n, hev⟩

theorem uninstLoop_tail_shape (ns : List String) :
    ∀ (s : MState) (log : List Ev),
      ∃ s' tail, uninstLoop ns s log = (s', log ++ tail) ∧
        ∀ ev ∈ tail,
          (∃ nm, ev = Ev.deactivated nm) ∨ (∃ nm, ev = Ev.uninstalled nm) := by
  induction ns with
  | nil => intro s log; exact ⟨s, [], by simp [uninstLoop], by simp⟩
  | cons n ns ih =>
    intro s log
    simp only [uninstLoop]
    by_cases hc : mget s.pluginStates n ≠ some .uninstalled ∧
        mget s.pluginStates n ≠ some .registered
    · rw [if_pos hc]
      obtain ⟨s', tail, h, hshape⟩ :=
        ih (uninstall s n).s (log ++ (uninstall s n).log)
      refine ⟨s', (uninstall s n).log ++ tail, by rw [h]; simp, ?_⟩
      intro ev hev
      rcases List.mem_append.mp hev with hev | hev
      · exact uninstall_log_shape s n ev hev
      · exact hshape ev hev
    · rw [if_neg hc]
      exact ih s log

/-- The complete event trace of `shutdown` when no active plugin's
`onStop` / `onShutdown` hook throws: stop hooks in reverse active order,
then shutdown hooks in reverse active order, then deactivation in the
same reverse order, then the uninstallation phase. -/
theorem shutdown_trace (s : MState)
    (hwf : ∀ k q, mget s.plugins k = some q → q.name = k)
    (hnd : (mkeys s.pluginStates).Nodup)
    (hstop : ∀ p ∈ getActivePlugins s, throwsStop p = false)
    (hshut : ∀ p ∈ getActivePlugins s, ∀ e, p.onShutdown ≠ some (.error e)) :
    ∃ tail, (PluginManager.shutdown s).res = .ok () ∧
      (PluginManager.shutdown s).log =
        ((getActivePlugins s).reverse.flatMap stopEvsOf) ++ [Ev.appStop] ++
        ((getActivePlugins s).reverse.flatMap shutdownEvsOf) ++
        [Ev.appShutdown] ++
        ((getActivePlugins s).reverse.map (fun p => Ev.deactivated p.name)) ++
        tail ∧
      (∀ ev ∈ tail, (∃ nm, ev = Ev.deactivated nm) ∨
        (∃ nm, ev = Ev.uninstalled nm)) := by
  have hstopRun : triggerStop s =
      ⟨.ok (), s, (getActivePlugins s).reverse.flatMap stopEvsOf ++
        [Ev.appStop]⟩ := by
    unfold triggerStop
    rw [stopLoop_no_throw _ s []
      (fun p hp => hstop p (List.mem_reverse.mp hp))]
    simp
  have hshutRun : triggerShutdown s =
      ⟨.ok (), s, (getActivePlugins s).reverse.flatMap shutdownEvsOf ++
        [Ev.appShutdown]⟩ := by
    unfold triggerShutdown
    rw [shutdownLoop_no_throw _ s []
      (fun p hp => hshut p (List.mem_reverse.mp hp))]
    simp
  have hcond : ∀ p ∈ (getActivePlugins s).reverse,
      mget s.plugins p.name ≠ none ∧
      mget s.pluginStates p.name = some .active := by
    intro p hp
    obtain ⟨k, hk, hget⟩ :=
      (mem_getActivePlugins s p).mp (List.mem_reverse.mp hp)
    have hkname : p.name = k := hwf k p hget
    subst hkname
    exact ⟨by rw [hget]; simp, mget_of_mem_nodup _ _ _ hk hnd⟩
  have hndnames : ((getActivePlugins s).reverse.map
      (fun p => p.name)).Nodup := by
    rw [List.map_reverse, List.nodup_reverse]
    exact ((activeNames_sublist s hwf).nodup hnd)
  obtain ⟨s₃, hdeact⟩ :=
    deactLoop_spec (getActivePlugins s).reverse s
      (((getActivePlugins s).reverse.flatMap stopEvsOf ++ [Ev.appStop]) ++
        ((getActivePlugins s).reverse.flatMap shutdownEvsOf ++
          [Ev.appShutdown]))
      hcond hndnames
  obtain ⟨s₄, tail₀, hu, hushape⟩ :=
    uninstLoop_tail_shape (mkeys s₃.plugins) s₃
      ((((getActivePlugins s).reverse.flatMap stopEvsOf ++ [Ev.appStop]) ++
        ((getActivePlugins s).reverse.flatMap shutdownEvsOf ++
          [Ev.appShutdown])) ++
        (getActivePlugins s).reverse.map (fun p => Ev.deactivated p.name))
  refine ⟨tail₀, ?_, ?_, hushape⟩ <;>
    simp only [PluginManager.shutdown, hstopRun, hshutRun, hdeact, hu] <;>
    simp [List.append_assoc]

/-! ### Health-check aggregation -/

theorem string_eq_of_data (a b : String) (h : a.data = b.data) : a = b := by
  cases a
  cases b
  exact congrArg String.mk (by simpa using h)

theorem colon_splits (l₁ : List Char) :
    ∀ (l₂ b d : List Char), (':' : Char) ∉ l₁ → (':' : Char) ∉ l₂ →
      l₁ ++ ':' :: b = l₂ ++ ':' :: d → l₁ = l₂ ∧ b = d := by
  induction l₁ with
  | nil =>
    intro l₂ b d _ h₂ heq
    cases l₂ with
    | nil => simpa using heq
    | cons y ys =>
      simp only [List.nil_append, List.cons_append, List.cons.injEq] at heq
      exact absurd (show (':' : Char) ∈ y :: ys by
        rw [heq.1]; exact List.mem_cons_self y ys) h₂
  | cons x xs ih =>
    intro l₂ b d h₁ h₂ heq
    cases l₂ with
    | nil =>
      simp only [List.cons_append, List.nil_append, List.cons.injEq] at heq
      exact absurd (show (':' : Char) ∈ x :: xs by
        rw [← heq.1]; exact List.mem_cons_self x xs) h₁
    | cons y ys =>
      simp only [List.cons_append, List.cons.injEq] at heq
      obtain ⟨hxy, heq'⟩ := heq
      obtain ⟨h₁', h₂'⟩ := ih ys b d
        (fun hmem => h₁ (List.mem_cons_of_mem x hmem))
        (fun hmem => h₂ (List.mem_cons_of_mem y hmem)) heq'
      exact ⟨by rw [hxy, h₁'], h₂'⟩

theorem colon_append_inj (a c b d : String)
    (ha : (':' : Char) ∉ a.data) (hc : (':' : Char) ∉ c.data)
    (h : a ++ ":" ++ b = c ++ ":" ++ d) : a = c ∧ b = d := by
  have hdata := congrArg String.data h
  simp only [String.data_append] at hdata
  have h' : a.data ++ ':' :: b.data = c.data ++ ':' :: d.data := by
    simpa using hdata
  obtain ⟨h₁, h₂⟩ := colon_splits a.data c.data b.data d.data ha hc h'
  exact ⟨string_eq_of_data a c h₁, string_eq_of_data b d h₂⟩

theorem colon_key_ne_plain (a b k : String)
    (hk : (':' : Char) ∉ k.data) : a ++ ":" ++ b ≠ k := by
  intro h
  have hdata := congrArg String.data h
  simp only [String.data_append] at hdata
  apply hk
  rw [← hdata]
  simp

theorem healthLoop_append (a : List Plugin) :
    ∀ (b : List Plugin) cs ov (s : MState) log,
      healthLoop (a ++ b) cs ov s log =
        healthLoop b (healthLoop a cs ov s log).1
          (healthLoop a cs ov s log).2.1
          (healthLoop a cs ov s log).2.2.1
          (healthLoop a cs ov s log).2.2.2 := by
  induction a with
  | nil => intro b cs ov s log; rfl
  | cons p a ih =>
    intro b cs ov s log
    rcases hp : p.onHealthCheck with _ | beh
    · simp only [List.cons_append, healthLoop, hp]
      exact ih b cs ov s log
    · cases beh with
      | ok r =>
        simp only [List.cons_append, healthLoop, hp]
        exact ih b _ _ s log
      | error e =>
        simp only [List.cons_append, healthLoop, hp]
        exact ih b _ _ _ _

theorem healthLoop_status (ps : List Plugin) :
    ∀ cs ov (s : MState) log,
      (healthLoop ps cs ov s log).2.1 =
        if ps.any healthBad = true then HStat.unhealthy
        else if ps.any healthDegraded = true then
          (if ov = HStat.healthy then HStat.degraded else ov)
        else ov := by
  induction ps with
  | nil => intro cs ov s log; simp [healthLoop]
  | cons p ps ih =>
    intro cs ov s log
    rcases hp : p.onHealthCheck with _ | beh
    · simp only [healthLoop, hp]
      rw [ih]
      simp [List.any_cons, healthBad, healthDegraded, hp]
    · cases beh with
      | error e =>
        simp only [healthLoop, hp]
        rw [ih]
        have hb : healthBad p = true := by simp [healthBad, hp]
        by_cases h₁ : ps.any healthBad = true <;>
          by_cases h₂ : ps.any healthDegraded = true <;>
            simp [List.any_cons, hb, h₁, h₂]
      | ok r =>
        simp only [healthLoop, hp]
        rw [ih]
        rcases hst : r.status with _ | _ | _
        · -- healthy
          have hb : healthBad p = false := by simp [healthBad, hp, hst]
          have hd : healthDegraded p = false := by
            simp [healthDegraded, hp, hst]
          simp [List.any_cons, hb, hd, hst]
        · -- unhealthy
          have hb : healthBad p = true := by simp [healthBad, hp, hst]
          by_cases h₁ : ps.any healthBad = true <;>
            by_cases h₂ : ps.any healthDegraded = true <;>
              simp [List.any_cons, hb, h₁, h₂, hst]
        · -- degraded
          have hb : healthBad p = false := by simp [healthBad, hp, hst]
          have hd : healthDegraded p = true := by
            simp [healthDegraded, hp, hst]
          by_cases h₁ : ps.any healthBad = true <;>
            by_cases h₂ : ps.any healthDegraded = true <;>
              by_cases h₃ : ov = HStat.healthy <;>
                simp [List.any_cons, hb, hd, h₁, h₂, h₃, hst]

theorem append_colon_right_inj (nm b d : String)
    (h : nm ++ ":" ++ b = nm ++ ":" ++ d) : b = d := by
  have hdata := congrArg String.data h
  simp only [String.data_append] at hdata
  refine string_eq_of_data b d ?_
  have h' : nm.data ++ ':' :: b.data = nm.data ++ ':' :: d.data := by
    simpa using hdata
  simpa using List.append_cancel_left h'

theorem mergeFold_mget_preserve (nm : String)
    (m : List (String × CheckEntry)) :
    ∀ (cs : List (String × CheckEntry)) (K : String),
      (∀ e ∈ m, nm ++ ":" ++ e.1 ≠ K) →
      mget (m.foldl (fun acc e => mset acc (nm ++ ":" ++ e.1)
        { e.2 with duration := some (e.2.duration.getD 0) }) cs) K =
        mget cs K := by
  induction m with
  | nil => intro cs K _; rfl
  | cons e₀ t ih =>
    intro cs K hne
    simp only [List.foldl_cons]
    rw [ih _ K (fun e he => hne e (List.mem_cons_of_mem e₀ he))]
    exact mget_mset_ne cs _ K _ (hne e₀ (List.mem_cons_self e₀ t))

theorem mergeFold_mget_self (nm : String) (m : List (String × CheckEntry)) :
    ∀ (cs : List (String × CheckEntry)) (cn : String) (ce : CheckEntry),
      (cn, ce) ∈ m → (m.map (fun e => e.1)).Nodup →
      mget (m.foldl (fun acc e => mset acc (nm ++ ":" ++ e.1)
        { e.2 with duration := some (e.2.duration.getD 0) }) cs)
        (nm ++ ":" ++ cn) =
        some { ce with duration := some (ce.duration.getD 0) } := by
  induction m with
  | nil => intro _ _ _ h; cases h
  | cons e₀ t ih =>
    intro cs cn ce hmem hnd
    simp only [List.map_cons, List.nodup_cons] at hnd
    rcases List.mem_cons.mp hmem with heq | hmem
    · subst heq
      simp only [List.foldl_cons]
      rw [mergeFold_mget_preserve nm t _ _ ?_]
      · exact mget_mset_self cs _ _
      · intro e he habs
        have : e.1 = cn := append_colon_right_inj nm e.1 cn habs
        exact hnd.1 (this ▸ List.mem_map_of_mem (fun x => x.1) he)
    · simp only [List.foldl_cons]
      exact ih _ cn ce hmem hnd.2

theorem healthLoop_mget_preserve (ps : List Plugin) :
    ∀ cs ov (s : MState) log (K : String),
      (∀ q ∈ ps, q.name ≠ K ∧ ∀ cn, q.name ++ ":" ++ cn ≠ K) →
      mget (healthLoop ps cs ov s log).1 K = mget cs K := by
  induction ps with
  | nil => intro cs ov s log K _; rfl
  | cons p ps ih =>
    intro cs ov s log K hne
    obtain ⟨hname, hcolon⟩ := hne p (List.mem_cons_self p ps)
    have hrest := fun q hq => hne q (List.mem_cons_of_mem p hq)
    rcases hp : p.onHealthCheck with _ | beh
    · simp only [healthLoop, hp]
      exact ih cs ov s log K hrest
    · cases beh with
      | error e =>
        simp only [healthLoop, hp]
        rw [ih _ _ _ _ K hrest]
        exact mget_mset_ne cs p.name K _ hname
      | ok r =>
        simp only [healthLoop, hp]
        rcases hc : r.checks with _ | m
        · rw [ih _ _ _ _ K hrest]
          exact mget_mset_ne cs p.name K _ hname
        · rw [ih _ _ _ _ K hrest]
          exact mergeFold_mget_preserve p.name m cs K
            (fun e _ => hcolon e.1)

/-- The overall status computed by `triggerHealthCheck`: unhealthy as
soon as one active plugin's hook throws or reports unhealthy (and
nothing downgrades it); otherwise degraded as soon as one reports
degraded; otherwise healthy. -/
theorem triggerHealthCheck_status (s : MState) :
    (triggerHealthCheck s).1.status =
      if (getActivePlugins s).any healthBad = true then HStat.unhealthy
      else if (getActivePlugins s).any healthDegraded = true then
        HStat.degraded
      else HStat.healthy := by
  unfold triggerHealthCheck
  simp only
  rw [healthLoop_status]
  by_cases h₁ : (getActivePlugins s).any healthBad = true <;>
    by_cases h₂ : (getActivePlugins s).any healthDegraded = true <;>
      simp [h₁, h₂]

/-- A plugin whose hook throws contributes a synthetic `fail` entry
keyed by its name and carrying the error message. -/
theorem triggerHealthCheck_throw_entry (s : MState) (p : Plugin)
    (e : ErrMsg) (hnd : (activeNames s).Nodup)
    (hfree : ∀ q ∈ getActivePlugins s, (':' : Char) ∉ q.name.data)
    (hmem : p ∈ getActivePlugins s)
    (hp : p.onHealthCheck = some (.error e)) :
    mget (triggerHealthCheck s).1.checks p.name =
      some ⟨.fail, some (errText e), some 0⟩ := by
  rcases List.append_of_mem hmem with ⟨pre, post, hsplit⟩
  unfold triggerHealthCheck
  simp only
  rw [hsplit, healthLoop_append]
  simp only [healthLoop, hp]
  have hndsplit : ((pre ++ p :: post).map (fun q => q.name)).Nodup := by
    have : activeNames s = (pre ++ p :: post).map (fun q => q.name) := by
      unfold activeNames
      rw [hsplit]
    rw [← this]
    exact hnd
  rw [healthLoop_mget_preserve post _ _ _ _ p.name ?_]
  · exact mget_mset_self _ p.name _
  · intro q hq
    constructor
    · intro habs
      simp only [List.map_append, List.map_cons] at hndsplit
      rcases List.nodup_append.mp hndsplit with ⟨_, hnd₂, _⟩
      rcases List.nodup_cons.mp hnd₂ with ⟨hnotin, _⟩
      exact hnotin (habs ▸ List.mem_map_of_mem (fun x => x.name) hq)
    · intro cn
      exact colon_key_ne_plain q.name cn p.name
        (hfree p hmem)

/-- A detailed check entry of a plugin's health result is merged under
the `pluginName:checkName` key with its status and message preserved. -/
theorem triggerHealthCheck_merged_entry (s : MState) (p : Plugin)
    (r : HealthResult) (m : List (String × CheckEntry)) (cn : String)
    (ce : CheckEntry) (hnd : (activeNames s).Nodup)
    (hfree : ∀ q ∈ getActivePlugins s, (':' : Char) ∉ q.name.data)
    (hmem : p ∈ getActivePlugins s)
    (hp : p.onHealthCheck = some (.ok r)) (hchecks : r.checks = some m)
    (hmnd : (m.map (fun e => e.1)).Nodup) (hcm : (cn, ce) ∈ m) :
    mget (triggerHealthCheck s).1.checks (p.name ++ ":" ++ cn) =
      some { ce with duration := some (ce.duration.getD 0) } := by
  rcases List.append_of_mem hmem with ⟨pre, post, hsplit⟩
  unfold triggerHealthCheck
  simp only
  rw [hsplit, healthLoop_append]
  simp only [healthLoop, hp, hchecks]
  have hndsplit : ((pre ++ p :: post).map (fun q => q.name)).Nodup := by
    have : activeNames s = (pre ++ p :: post).map (fun q => q.name) := by
      unfold activeNames
      rw [hsplit]
    rw [← this]
    exact hnd
  rw [healthLoop_mget_preserve post _ _ _ _ _ ?_]
  · exact mergeFold_mget_self p.name m _ cn ce hcm hmnd
  · intro q hq
    have hqmem : q ∈ getActivePlugins s := by
      rw [hsplit]
      exact List.mem_append_right _ (List.mem_cons_of_mem p hq)
    have hqname : q.name ≠ p.name := by
      intro habs
      simp only [List.map_append, List.map_cons] at hndsplit
      rcases List.nodup_append.mp hndsplit with ⟨_, hnd₂, _⟩
      rcases List.nodup_cons.mp hnd₂ with ⟨hnotin, _⟩
      exact hnotin (habs ▸ List.mem_map_of_mem (fun x => x.name) hq)
    constructor
    · intro habs
      exact colon_key_ne_plain p.name cn q.name (hfree q hqmem) habs.symm
    · intro cn' habs
      obtain ⟨hqp, _⟩ := colon_append_inj q.name p.name cn' cn
        (hfree q hqmem) (hfree p hmem) habs
      exact hqname hqp

/-! ### Events appearing in the several shutdown phases -/

theorem stopCalls_shutdownEvs (ps : List Plugin) :
    stopCalls (ps.flatMap shutdownEvsOf) = [] := by
  rw [stopCalls, List.filterMap_eq_nil]
  intro ev hev
  rcases List.mem_flatMap.mp hev with ⟨p, _, hmem⟩
  rcases hs : p.onShutdown with _ | beh
  · simp only [shutdownEvsOf, hs] at hmem
    cases hmem
  · cases beh with
    | ok u =>
      simp only [shutdownEvsOf, hs, List.mem_singleton] at hmem
      subst hmem
      rfl
    | error e =>
      simp only [shutdownEvsOf, hs, List.mem_cons, List.mem_singleton,
        List.not_mem_nil, or_false] at hmem
      rcases hmem with hmem | hmem <;> subst hmem <;> rfl

theorem shutdownCalls_stopEvs (ps : List Plugin) :
    shutdownCalls (ps.flatMap stopEvsOf) = [] := by
  rw [shutdownCalls, List.filterMap_eq_nil]
  intro ev hev
  rcases List.mem_flatMap.mp hev with ⟨p, _, hmem⟩
  rcases hs : p.onStop with _ | beh
  · simp only [stopEvsOf, hs] at hmem
    cases hmem
  · cases beh with
    | ok u =>
      simp only [stopEvsOf, hs, List.mem_singleton] at hmem
      subst hmem
      rfl
    | error e =>
      simp only [stopEvsOf, hs, List.mem_cons, List.mem_singleton,
        List.not_mem_nil, or_false] at hmem
      rcases hmem with hmem | hmem <;> subst hmem <;> rfl

theorem deactEvents_stopEvs (ps : List Plugin) :
    deactEvents (ps.flatMap stopEvsOf) = [] := by
  rw [deactEvents, List.filterMap_eq_nil]
  intro ev hev
  rcases List.mem_flatMap.mp hev with ⟨p, _, hmem⟩
  rcases hs : p.onStop with _ | beh
  · simp only [stopEvsOf, hs] at hmem
    cases hmem
  · cases beh with
    | ok u =>
      simp only [stopEvsOf, hs, List.mem_singleton] at hmem
      subst hmem
      rfl
    | error e =>
      simp only [stopEvsOf, hs, List.mem_cons, List.mem_singleton,
        List.not_mem_nil, or_false] at hmem
      rcases hmem with hmem | hmem <;> subst hmem <;> rfl

theorem deactEvents_shutdownEvs (ps : List Plugin) :
    deactEvents (ps.flatMap shutdownEvsOf) = [] := by
  rw [deactEvents, List.filterMap_eq_nil]
  intro ev hev
  rcases List.mem_flatMap.mp hev with ⟨p, _, hmem⟩
  rcases hs : p.onShutdown with _ | beh
  · simp only [shutdownEvsOf, hs] at hmem
    cases hmem
  · cases beh with
    | ok u =>
      simp only [shutdownEvsOf, hs, List.mem_singleton] at hmem
      subst hmem
      rfl
    | error e =>
      simp only [shutdownEvsOf, hs, List.mem_cons, List.mem_singleton,
        List.not_mem_nil, or_false] at hmem
      rcases hmem with hmem | hmem <;> subst hmem <;> rfl

theorem stopCalls_deactMap (ps : List Plugin) :
    stopCalls (ps.map (fun p => Ev.deactivated p.name)) = [] := by
  rw [stopCalls, List.filterMap_eq_nil]
  intro ev hev
  rcases List.mem_map.mp hev with ⟨p, _, hp⟩
  simp [← hp]

theorem shutdownCalls_deactMap (ps : List Plugin) :
    shutdownCalls (ps.map (fun p => Ev.deactivated p.name)) = [] := by
  rw [shutdownCalls, List.filterMap_eq_nil]
  intro ev hev
  rcases List.mem_map.mp hev with ⟨p, _, hp⟩
  simp [← hp]

theorem deactEvents_deactMap (ps : List Plugin) :
    deactEvents (ps.map (fun p => Ev.deactivated p.name)) =
      ps.map (fun p => p.name) := by
  induction ps with
  | nil => rfl
  | cons p ps ih =>
    simp only [List.map_cons]
    rw [show Ev.deactivated p.name :: List.map (fun p => Ev.deactivated p.name) ps =
      [Ev.deactivated p.name] ++ List.map (fun p => Ev.deactivated p.name) ps
      from rfl, deactEvents_append, ih]
    rfl

/-! ### The dependency check of `activate` -/

theorem firstUnmet_eq_some (states : List (String × PluginState)) :
    ∀ (pre : List String) (d : String) (rest : List String),
      (∀ d' ∈ pre, mget states d' = some .active) →
      mget states d ≠ some .active →
      firstUnmet states (pre ++ d :: rest) = some d := by
  intro pre
  induction pre with
  | nil =>
    intro d rest _ hd
    simp only [List.nil_append, firstUnmet]
    rw [if_pos hd]
  | cons d' pre ih =>
    intro d rest hpre hd
    simp only [List.cons_append, firstUnmet]
    rw [if_neg (by simp [hpre d' (List.mem_cons_self d' pre)])]
    exact ih d rest (fun x hx => hpre x (List.mem_cons_of_mem d' hx)) hd

theorem firstUnmet_eq_none (states : List (String × PluginState)) :
    ∀ (deps : List String), (∀ d ∈ deps, mget states d = some .active) →
      firstUnmet states deps = none := by
  intro deps
  induction deps with
  | nil => intro _; rfl
  | cons d deps ih =>
    intro hdeps
    simp only [firstUnmet]
    rw [if_neg (by simp [hdeps d (List.mem_cons_self d deps)])]
    exact ih (fun x hx => hdeps x (List.mem_cons_of_mem d hx))

/-! ### `install` on a registry whose dependency graph has a cycle -/

theorem install_cycle (s : MState) (name : String) (c : List String)
    (p : Plugin) (hdet : detectCircularDependency s.plugins = some c)
    (hget : mget s.plugins name = some p)
    (hstate : mget s.pluginStates name = some .registered) :
    install s name =
      ⟨(if s.continueOnError then .ok ()
        else .error (.circularDependency c (c.headD ""))),
        { s with pluginErrors := mset s.pluginErrors name (.circularDependency c (c.headD "")) },
        [Ev.pluginError name (.circularDependency c (c.headD ""))]⟩ := by
  have hres : resolveInstallOrder s.plugins name =
      .error (.circularDependency c (c.headD "")) := by
    unfold resolveInstallOrder
    exact topologicalSort_error_of_detect s.plugins c hdet _
  simp only [install, hget, hstate, if_pos rfl, hres]
  by_cases hflag : s.continueOnError <;> simp [hflag]

theorem mget_mem {α : Type} (l : List (String × α)) (k : String) (v : α)
    (h : mget l k = some v) : (k, v) ∈ l := by
  induction l with
  | nil => simp [mget] at h
  | cons e t ih =>
    by_cases he : e.1 = k
    · simp [mget, List.find?_cons, he] at h
      have hkv : (k, v) = e := by rw [← he, ← h]
      rw [hkv]
      exact List.mem_cons_self e t
    · simp only [mget, List.find?_cons, he, decide_False] at h
      exact List.mem_cons_of_mem e (ih h)

/-! ### The claims -/

/-- C1 (counterexample): the registry `cycPlugins` is cyclic
(`a -> b -> a` are declared-dependency edges and the detector returns
the cycle), yet `install "a"` under the default `continueOnError = true`
returns to its caller without raising — refuting the claim that
`install` raises a cycle error regardless of the `continueOnError`
setting. -/
theorem claim_C1_counterexample :
    detectCircularDependency sCyc.plugins = some ["a", "b", "a"] ∧
    edge sCyc.plugins "a" "b" ∧ edge sCyc.plugins "b" "a" ∧
    sCyc.continueOnError = true ∧
    mget sCyc.pluginStates "a" = some .registered ∧
    (install sCyc "a").res = .ok () := by decide

/-- C1 (amended): for every registered plugin map whose dependency graph
contains a cycle, `detectCircularDependency` returns a non-empty path in
which every adjacent pair is a declared-dependency edge, and
`topologicalSort` (for every subset) and `validateDependencies` raise an
error referencing that cycle; `install` on a registered plugin records
that cycle error against the plugin and emits a `plugin:error` event,
re-throwing it to the caller when `continueOnError` is false and
swallowing it (returning normally) when `continueOnError` is true. -/
theorem claim_C1_amended (plugins : List (String × Plugin))
    (hcyc : hasCycle plugins) :
    ∃ c, detectCircularDependency plugins = some c ∧ c ≠ [] ∧
      List.Chain' (edge plugins) c ∧
      (∀ subset, topologicalSort plugins subset =
        .error (.circularDependency c (c.headD ""))) ∧
      validateDependenciesAll plugins =
        .error (.circularDependencyAll c (c.headD "")) ∧
      (∀ (s : MState) (name : String) (p : Plugin), s.plugins = plugins →
        mget s.plugins name = some p →
        mget s.pluginStates name = some .registered →
        (s.continueOnError = false →
          (install s name).res =
            .error (.circularDependency c (c.headD ""))) ∧
        (s.continueOnError = true → (install s name).res = .ok ()) ∧
        mget (install s name).s.pluginErrors name =
          some (.circularDependency c (c.headD "")) ∧
        Ev.pluginError name (.circularDependency c (c.headD "")) ∈
          (install s name).log) := by
  obtain ⟨c, hdet⟩ := detect_some_of_hasCycle plugins hcyc
  have hgood := detect_some_goodCycle plugins c hdet
  refine ⟨c, hdet, ?_, hgood.2.1, ?_, ?_, ?_⟩
  · intro hnil
    rw [hnil] at hgood
    exact absurd hgood.1 (by simp)
  · intro subset
    exact topologicalSort_error_of_detect plugins c hdet subset
  · simp [validateDependenciesAll, hdet]
  · intro s name p hsp hget hstate
    have hdet' : detectCircularDependency s.plugins = some c := by
      rw [hsp]; exact hdet
    have hrun := install_cycle s name c p hdet' hget hstate
    refine ⟨?_, ?_, ?_, ?_⟩
    · intro hflag; rw [hrun]; simp [hflag]
    · intro hflag; rw [hrun]; simp [hflag]
    · rw [hrun]; exact mget_mset_self _ _ _
    · rw [hrun]; simp

/-- C1 (witness): the amended claim applied to the concrete cyclic
registry `cycPlugins`. -/
theorem claim_C1_witness :
    ∃ c, detectCircularDependency cycPlugins = some c ∧ c ≠ [] ∧
      List.Chain' (edge cycPlugins) c ∧
      (∀ subset, topologicalSort cycPlugins subset =
        .error (.circularDependency c (c.headD ""))) ∧
      validateDependenciesAll cycPlugins =
        .error (.circularDependencyAll c (c.headD "")) ∧
      (∀ (s : MState) (name : String) (p : Plugin), s.plugins = cycPlugins →
        mget s.plugins name = some p →
        mget s.pluginStates name = some .registered →
        (s.continueOnError = false →
          (install s name).res =
            .error (.circularDependency c (c.headD ""))) ∧
        (s.continueOnError = true → (install s name).res = .ok ()) ∧
        mget (install s name).s.pluginErrors name =
          some (.circularDependency c (c.headD "")) ∧
        Ev.pluginError name (.circularDependency c (c.headD "")) ∈
          (install s name).log) :=
  claim_C1_amended cycPlugins
    ⟨"a", Relation.TransGen.tail
      (Relation.TransGen.single (show edge cycPlugins "a" "b" by decide))
      (show edge cycPlugins "b" "a" by decide)⟩

/-- C10 (counterexample): in `sDisj` the offenders `a`, `b` form a cycle
disjoint from —and unreachable from— the requested plugin `x` (which has
no dependencies at all), yet `install "x"` under the default
`continueOnError = true` returns without raising, refuting the claim
that `install` raises such errors to its caller. -/
theorem claim_C10_counterexample :
    detectCircularDependency sDisj.plugins = some ["a", "b", "a"] ∧
    depsOf sDisj.plugins "x" = [] ∧
    ("x" ∉ (["a", "b", "a"] : List String)) ∧
    sDisj.continueOnError = true ∧
    mget sDisj.pluginStates "x" = some .registered ∧
    (install sDisj "x").res = .ok () ∧
    mget (install sDisj "x").s.pluginErrors "x" =
      some (.circularDependency ["a", "b", "a"] "a") := by decide

/-- C10 (amended): `topologicalSort` validates the entire registered-
plugin map before sorting and raises a cycle or missing-dependency error
whenever any registered plugin anywhere in the registry has one, for
every requested subset — even one disjoint from the offenders; `install`,
which feeds `topologicalSort` the transitive closure of the requested
name, then records that error against the requested plugin and emits a
`plugin:error` event, re-raising it to the caller only when
`continueOnError` is false. -/
theorem claim_C10_amended (plugins : List (String × Plugin)) :
    (∀ c, detectCircularDependency plugins = some c →
      ∀ subset, topologicalSort plugins (some subset) =
        .error (.circularDependency c (c.headD ""))) ∧
    (detectCircularDependency plugins = none →
      detectMissingDependencies plugins ≠ [] →
      ∀ subset, topologicalSort plugins (some subset) =
        .error (.missingDependency (detectMissingDependencies plugins))) ∧
    (∀ (s : MState) (name : String) (p : Plugin) (c : List String),
      s.plugins = plugins → detectCircularDependency plugins = some c →
      mget s.plugins name = some p →
      mget s.pluginStates name = some .registered →
      (s.continueOnError = false →
        (install s name).res = .error (.circularDependency c (c.headD ""))) ∧
      (s.continueOnError = true → (install s name).res = .ok ()) ∧
      mget (install s name).s.pluginErrors name =
        some (.circularDependency c (c.headD ""))) := by
  refine ⟨?_, ?_, ?_⟩
  · intro c hdet subset
    exact topologicalSort_error_of_detect plugins c hdet (some subset)
  · intro hdet hm subset
    exact topologicalSort_error_of_missing plugins hdet hm (some subset)
  · intro s name p c hsp hdet hget hstate
    have hdet' : detectCircularDependency s.plugins = some c := by
      rw [hsp]; exact hdet
    have hrun := install_cycle s name c p hdet' hget hstate
    refine ⟨?_, ?_, ?_⟩
    · intro hflag; rw [hrun]; simp [hflag]
    · intro hflag; rw [hrun]; simp [hflag]
    · rw [hrun]; exact mget_mset_self _ _ _

/-- C10 (witness): the amended claim applied to `disjPlugins`, whose
cycle is disjoint from the requested subset `["x"]` and unreachable from
`"x"`. -/
theorem claim_C10_witness :
    topologicalSort disjPlugins (some ["x"]) =
      .error (.circularDependency ["a", "b", "a"] "a") ∧
    (sDisj.continueOnError = true → (install sDisj "x").res = .ok ()) ∧
    mget (install sDisj "x").s.pluginErrors "x" =
      some (.circularDependency ["a", "b", "a"] "a") := by
  refine ⟨(claim_C10_amended disjPlugins).1 ["a", "b", "a"] (by decide) ["x"],
    ?_, ?_⟩
  · intro _
    exact ((claim_C10_amended disjPlugins).2.2 sDisj "x" pX ["a", "b", "a"]
      rfl (by decide) (by decide) (by decide)).2.1 (by decide)
  · exact ((claim_C10_amended disjPlugins).2.2 sDisj "x" pX ["a", "b", "a"]
      rfl (by decide) (by decide) (by decide)).2.2

/-- C4 (counterexample): in `tiePlugins` with requested subset
`[y, x, z]`, the plugins `x` and `z` are independent (neither declares
any dependency) and `x` precedes `z` in the subset, yet the output is
`[z, y, x]`, in which `z` precedes `x` — refuting the claim that ties
among independent plugins are broken by the input order of the
subset. -/
theorem claim_C4_counterexample :
    topologicalSort tiePlugins (some ["y", "x", "z"]) = .ok ["z", "y", "x"] ∧
    depsOf tiePlugins "x" = [] ∧ depsOf tiePlugins "z" = [] ∧
    (["y", "x", "z"] : List String).indexOf "x" <
      (["y", "x", "z"] : List String).indexOf "z" ∧
    (["z", "y", "x"] : List String).indexOf "z" <
      (["z", "y", "x"] : List String).indexOf "x" := by decide

/-- C4 (amended): for every acyclic dependency graph with no missing
dependencies and every requested subset of distinct plugin names,
`topologicalSort` returns a permutation of exactly that subset in which
every dependency that is itself in the subset precedes every plugin
declaring it; an element `x` listed before `y` in the subset precedes
`y` in the output whenever `y` is not reachable along in-subset
dependency edges from `x` or from an earlier subset entry (in
particular, ties among independent plugins are broken by input order
unless an earlier entry transitively depends on the later one). -/
theorem claim_C4_amended (plugins : List (String × Plugin))
    (subset : List String) (hnd : subset.Nodup)
    (hacy : ¬ hasCycle plugins)
    (hm : detectMissingDependencies plugins = []) :
    ∃ out, topologicalSort plugins (some subset) = .ok out ∧
      out.Perm subset ∧
      (∀ v d, v ∈ subset → d ∈ depsOf plugins v → d ∈ subset →
        out.indexOf d < out.indexOf v) ∧
      (∀ t₁ x t₂ y t₃, subset = t₁ ++ x :: t₂ ++ y :: t₃ →
        (∀ r, r ∈ t₁ ++ [x] → ¬ reachT plugins subset r y) →
        out.indexOf x < out.indexOf y) := by
  obtain ⟨out, hok, hnodup, hmem, hprec, htie⟩ :=
    topologicalSort_ok_spec plugins subset hacy hm
  refine ⟨out, hok, ?_, ?_, ?_⟩
  · refine List.perm_of_nodup_nodup_toFinset_eq hnodup hnd ?_
    ext x
    simp [hmem x]
  · intro v d hv hd hds
    exact hprec v d ((hmem v).mpr hv) hd hds
  · intro t₁ x t₂ y t₃ hsplit hnr
    exact (htie t₁ x t₂ y t₃ hsplit hnr).2.2

/-- C4 (witness): the amended claim applied to the concrete acyclic
registry `tiePlugins` with subset `[y, x, z]`. -/
theorem claim_C4_witness :
    ∃ out, topologicalSort tiePlugins (some ["y", "x", "z"]) = .ok out ∧
      out.Perm ["y", "x", "z"] ∧
      (∀ v d, v ∈ (["y", "x", "z"] : List String) →
        d ∈ depsOf tiePlugins v → d ∈ (["y", "x", "z"] : List String) →
        out.indexOf d < out.indexOf v) ∧
      (∀ t₁ x t₂ y t₃, (["y", "x", "z"] : List String) =
          t₁ ++ x :: t₂ ++ y :: t₃ →
        (∀ r, r ∈ t₁ ++ [x] →
          ¬ reachT tiePlugins ["y", "x", "z"] r y) →
        out.indexOf x < out.indexOf y) :=
  claim_C4_amended tiePlugins ["y", "x", "z"] (by decide)
    (detect_none_not_hasCycle tiePlugins (by decide)) (by decide)

/-- C2 (counterexample): with `continueOnError = false`, an error thrown
by an active plugin's `onStop` hook during `triggerStop` is re-thrown to
the caller, and the remaining active plugin's hook is never invoked —
refuting the claim that such errors are swallowed for every
`continueOnError` setting. -/
theorem claim_C2_counterexample :
    sStop2.continueOnError = false ∧
    mget sStop2.pluginStates "a" = some .active ∧
    mget sStop2.pluginStates "b" = some .active ∧
    stop2a.onStop = some (.ok ()) ∧
    stop2b.onStop = some (.error (.userErr 1)) ∧
    (triggerStop sStop2).res = .error (.userErr 1) ∧
    stopCalls (triggerStop sStop2).log = ["b"] := by decide

/-- C2 (amended): an error thrown by an active plugin's `onShutdown`
hook during `triggerShutdown` is recorded against that plugin and
swallowed for every `continueOnError` setting, so every remaining active
plugin's hook is still invoked; an error thrown from `onStop` during
`triggerStop` is recorded and swallowed (all remaining hooks invoked)
when `continueOnError` is true, but is re-thrown to the caller — 
aborting the remaining fan-out — when `continueOnError` is false. -/
theorem claim_C2_amended :
    (∀ s : MState, (triggerShutdown s).res = .ok ()) ∧
    (∀ s : MState, shutdownCalls (triggerShutdown s).log =
      (((getActivePlugins s).reverse.filter
        (fun p => p.onShutdown.isSome)).map (fun p => p.name))) ∧
    (∀ (s : MState) (p : Plugin) (e : ErrMsg), (activeNames s).Nodup →
      p ∈ getActivePlugins s → p.onShutdown = some (.error e) →
      mget (triggerShutdown s).s.pluginErrors p.name = some e) ∧
    (∀ s : MState, s.continueOnError = true →
      (triggerStop s).res = .ok () ∧
      stopCalls (triggerStop s).log =
        (((getActivePlugins s).reverse.filter
          (fun p => p.onStop.isSome)).map (fun p => p.name))) ∧
    (∀ (s : MState) (p : Plugin) (e : ErrMsg), s.continueOnError = true →
      (activeNames s).Nodup → p ∈ getActivePlugins s →
      p.onStop = some (.error e) →
      mget (triggerStop s).s.pluginErrors p.name = some e) ∧
    (∀ (s : MState) (pre : List Plugin) (q : Plugin) (rest : List Plugin)
      (e : ErrMsg), s.continueOnError = false →
      (getActivePlugins s).reverse = pre ++ q :: rest →
      (∀ r ∈ pre, throwsStop r = false) → q.onStop = some (.error e) →
      (triggerStop s).res = .error e ∧
      stopCalls (triggerStop s).log =
        ((pre.filter (fun p => p.onStop.isSome)).map (fun p => p.name)) ++
          [q.name]) := by
  refine ⟨?_, ?_, ?_, ?_, ?_, ?_⟩
  · intro s
    unfold triggerShutdown
    rw [shutdownLoop_spec]
  · intro s
    unfold triggerShutdown
    rw [shutdownLoop_spec]
    simp only [List.nil_append, shutdownCalls_append, shutdownCalls_flatMap]
    simp [shutdownCalls]
  · intro s p e hnd hmem hp
    unfold triggerShutdown
    rw [shutdownLoop_spec]
    refine foldl_recordShutdown_mget _ _ p e (List.mem_reverse.mpr hmem)
      ?_ hp
    rw [List.map_reverse, List.nodup_reverse]
    exact hnd
  · intro s hflag
    unfold triggerStop
    rw [stopLoop_ok_of_flag _ s [] hflag]
    simp only [List.nil_append, stopCalls_append, stopCalls_flatMap]
    simp [stopCalls]
  · intro s p e hflag hnd hmem hp
    unfold triggerStop
    rw [stopLoop_ok_of_flag _ s [] hflag]
    refine foldl_recordStop_mget _ _ p e (List.mem_reverse.mpr hmem) ?_ hp
    rw [List.map_reverse, List.nodup_reverse]
    exact hnd
  · intro s pre q rest e hflag hsplit hpre hq
    unfold triggerStop
    rw [hsplit, stopLoop_abort pre q rest s [] e hflag hpre hq]
    simp only [List.nil_append, stopCalls_append, stopCalls_flatMap]
    simp [stopCalls]

/-- C2 (witness): the amended claim instantiated at `sShutW` (a throwing
`onShutdown` hook is swallowed and recorded even with
`continueOnError = false`) and at `sStop2` (a throwing `onStop` hook
with `continueOnError = false` aborts the fan-out with that error). -/
theorem claim_C2_witness :
    (triggerShutdown sShutW).res = .ok () ∧
    mget (triggerShutdown sShutW).s.pluginErrors "w" =
      some (.userErr 2) ∧
    (triggerStop sStop2).res = .error (.userErr 1) ∧
    stopCalls (triggerStop sStop2).log = ["b"] := by
  have h := claim_C2_amended
  refine ⟨h.1 sShutW, ?_, ?_, ?_⟩
  · exact h.2.2.1 sShutW shutW (.userErr 2) (by decide) (by decide) rfl
  · exact (h.2.2.2.2.2 sStop2 [] stop2b [stop2a] (.userErr 1) rfl
      (by decide) (fun r hr => absurd hr (List.not_mem_nil r)) rfl).1
  · have h2 := (h.2.2.2.2.2 sStop2 [] stop2b [stop2a] (.userErr 1) rfl
      (by decide) (fun r hr => absurd hr (List.not_mem_nil r)) rfl).2
    simpa using h2

/-- C3 (counterexample): plugins are registered in order `[a, b]` but
activated in order `[b, a]`; `shutdown()` then invokes the `onStop` and
`onShutdown` hooks and emits the `deactivated` events in order
`[b, a]` — the reverse of the state-map insertion (registration) order —
whereas the claim (reverse activation order) predicts `[a, b]`. -/
theorem claim_C3_counterexample :
    activatedEvents ((PluginManager.activate c3s4 "b").log ++
      (PluginManager.activate c3s5 "a").log) = ["b", "a"] ∧
    stopCalls (PluginManager.shutdown c3s6).log = ["b", "a"] ∧
    shutdownCalls (PluginManager.shutdown c3s6).log = ["b", "a"] ∧
    deactEvents (PluginManager.shutdown c3s6).log = ["b", "a"] ∧
    (["b", "a"] : List String) ≠ (["b", "a"] : List String).reverse := by
  decide

/-- C3 (amended): `shutdown()` invokes the `onStop` hooks, then the
`onShutdown` hooks, and then deactivates the active plugins, each pass
in the reverse of the `pluginStates` map-insertion (registration) order
of the active plugins — which coincides with reverse activation order
exactly when plugins were activated in registration order.  Stated for
any manager state whose plugin map binds each key to a plugin of that
name, whose state-map keys are distinct, and whose active plugins'
stop/shutdown hooks do not throw. -/
theorem claim_C3_amended (s : MState)
    (hwf : ∀ k q, mget s.plugins k = some q → q.name = k)
    (hnd : (mkeys s.pluginStates).Nodup)
    (hstop : ∀ p ∈ getActivePlugins s, throwsStop p = false)
    (hshut : ∀ p ∈ getActivePlugins s, ∀ e,
      p.onShutdown ≠ some (.error e)) :
    (PluginManager.shutdown s).res = .ok () ∧
    stopCalls (PluginManager.shutdown s).log =
      (((getActivePlugins s).reverse.filter
        (fun p => p.onStop.isSome)).map (fun p => p.name)) ∧
    shutdownCalls (PluginManager.shutdown s).log =
      (((getActivePlugins s).reverse.filter
        (fun p => p.onShutdown.isSome)).map (fun p => p.name)) ∧
    ∃ tail, (PluginManager.shutdown s).log =
      ((getActivePlugins s).reverse.flatMap stopEvsOf) ++ [Ev.appStop] ++
      ((getActivePlugins s).reverse.flatMap shutdownEvsOf) ++
      [Ev.appShutdown] ++
      ((getActivePlugins s).reverse.map (fun p => Ev.deactivated p.name)) ++
      tail ∧
      deactEvents (((getActivePlugins s).reverse.flatMap stopEvsOf) ++
        [Ev.appStop] ++
        ((getActivePlugins s).reverse.flatMap shutdownEvsOf) ++
        [Ev.appShutdown] ++
        ((getActivePlugins s).reverse.map
          (fun p => Ev.deactivated p.name))) =
        (getActivePlugins s).reverse.map (fun p => p.name) := by
  obtain ⟨tail, hres, hlog, hshape⟩ := shutdown_trace s hwf hnd hstop hshut
  have htailstop : stopCalls tail = [] := by
    rw [stopCalls, List.filterMap_eq_nil]
    intro ev hev
    rcases hshape ev hev with ⟨nm, rfl⟩ | ⟨nm, rfl⟩ <;> rfl
  have htailshut : shutdownCalls tail = [] := by
    rw [shutdownCalls, List.filterMap_eq_nil]
    intro ev hev
    rcases hshape ev hev with ⟨nm, rfl⟩ | ⟨nm, rfl⟩ <;> rfl
  refine ⟨hres, ?_, ?_, tail, hlog, ?_⟩
  · rw [hlog]
    simp only [stopCalls_append, stopCalls_flatMap, stopCalls_shutdownEvs,
      stopCalls_deactMap, htailstop]
    simp [stopCalls]
  · rw [hlog]
    simp only [shutdownCalls_append, shutdownCalls_flatMap,
      shutdownCalls_stopEvs, shutdownCalls_deactMap, htailshut]
    simp [shutdownCalls]
  · simp only [deactEvents_append, deactEvents_stopEvs,
      deactEvents_shutdownEvs, deactEvents_deactMap]
    simp [deactEvents]

/-- C3 (witness): the amended claim instantiated at the concrete state
`sReq`-like two-plugin manager `c3s6` (registration order `[a, b]`,
both active): hooks and deactivations run in order `[b, a]`. -/
theorem claim_C3_witness :
    (PluginManager.shutdown c3s6).res = .ok () ∧
    stopCalls (PluginManager.shutdown c3s6).log =
      (((getActivePlugins c3s6).reverse.filter
        (fun p => p.onStop.isSome)).map (fun p => p.name)) ∧
    shutdownCalls (PluginManager.shutdown c3s6).log =
      (((getActivePlugins c3s6).reverse.filter
        (fun p => p.onShutdown.isSome)).map (fun p => p.name)) := by
  have hwf : ∀ k q, mget c3s6.plugins k = some q → q.name = k := by
    intro k q h
    have hpl : c3s6.plugins = [("a", c3pa), ("b", c3pb)] := by decide
    rw [hpl] at h
    have hm := mget_mem _ k q h
    simp only [List.mem_cons, List.mem_singleton, List.not_mem_nil,
      or_false, Prod.mk.injEq] at hm
    rcases hm with ⟨rfl, rfl⟩ | ⟨rfl, rfl⟩ <;> rfl
  have hshut : ∀ p ∈ getActivePlugins c3s6, ∀ e,
      p.onShutdown ≠ some (.error e) := by
    intro p hp e habs
    have hact : getActivePlugins c3s6 = [c3pa, c3pb] := by decide
    rw [hact] at hp
    simp only [List.mem_cons, List.mem_singleton, List.not_mem_nil,
      or_false] at hp
    rcases hp with rfl | rfl <;> simp [c3pa, c3pb] at habs
  have h := claim_C3_amended c3s6 hwf (by decide) (by decide) hshut
  exact ⟨h.1, h.2.1, h.2.2.1⟩

/-- C5: `triggerHealthCheck` aggregates the active plugins' results so
that any plugin that throws or reports `unhealthy` forces the overall
status to `unhealthy` (and nothing later downgrades it); a `degraded`
result yields overall `degraded` exactly when nothing reports or causes
`unhealthy`; a plugin whose hook throws produces a synthetic `fail`
check entry keyed by the plugin name and carrying the error message; and
per-check entries from a plugin's detailed check map are merged under
keys of the form `pluginName:checkName`. -/
theorem claim_C5 :
    (∀ s : MState, (triggerHealthCheck s).1.status =
      if (getActivePlugins s).any healthBad = true then HStat.unhealthy
      else if (getActivePlugins s).any healthDegraded = true then
        HStat.degraded
      else HStat.healthy) ∧
    (∀ (s : MState) (p : Plugin) (e : ErrMsg), (activeNames s).Nodup →
      (∀ q ∈ getActivePlugins s, (':' : Char) ∉ q.name.data) →
      p ∈ getActivePlugins s → p.onHealthCheck = some (.error e) →
      mget (triggerHealthCheck s).1.checks p.name =
        some ⟨.fail, some (errText e), some 0⟩) ∧
    (∀ (s : MState) (p : Plugin) (r : HealthResult)
      (m : List (String × CheckEntry)) (cn : String) (ce : CheckEntry),
      (activeNames s).Nodup →
      (∀ q ∈ getActivePlugins s, (':' : Char) ∉ q.name.data) →
      p ∈ getActivePlugins s → p.onHealthCheck = some (.ok r) →
      r.checks = some m → (m.map (fun e => e.1)).Nodup → (cn, ce) ∈ m →
      mget (triggerHealthCheck s).1.checks (p.name ++ ":" ++ cn) =
        some { ce with duration := some (ce.duration.getD 0) }) :=
  ⟨triggerHealthCheck_status, triggerHealthCheck_throw_entry,
    triggerHealthCheck_merged_entry⟩

/-- C5 (witness): at `sHealthU` a degraded reporter, a throwing hook and
two healthy reporters (one with a detailed check map) yield overall
`unhealthy` — not downgraded by the later healthy results — with the
synthetic `fail` entry for the thrower and the merged `h2:db` entry; at
`sHealthD` one degraded and one healthy reporter yield overall
`degraded`. -/
theorem claim_C5_witness :
    (triggerHealthCheck sHealthU).1.status = HStat.unhealthy ∧
    mget (triggerHealthCheck sHealthU).1.checks "h3" =
      some ⟨.fail, some (errText (.userErr 9)), some 0⟩ ∧
    mget (triggerHealthCheck sHealthU).1.checks ("h2" ++ ":" ++ "db") =
      some { status := CStat.pass, message := none, duration := some 0 } ∧
    (triggerHealthCheck sHealthD).1.status = HStat.degraded := by
  have h := claim_C5
  refine ⟨?_, ?_, ?_, ?_⟩
  · rw [h.1 sHealthU]; decide
  · exact h.2.1 sHealthU hpErr (.userErr 9) (by decide) (by decide)
      (by decide) rfl
  · have hm := h.2.2 sHealthU hpChk ⟨.healthy, some [("db", ⟨.pass, none, none⟩)]⟩ [("db", ⟨.pass, none, none⟩)] "db" ⟨.pass, none, none⟩ (by decide) (by decide) (by decide) rfl rfl (by decide) (by decide)
    simpa using hm
  · rw [h.1 sHealthD]; decide

/-- C6: the lifecycle state machine rejects illegal transitions:
`activate` succeeds only from states `installed` or `inactive`,
`deactivate` succeeds only from state `active`, and `uninstall` on a
plugin already `uninstalled` returns without error, without modifying
the state and without emitting any event. -/
theorem claim_C6 :
    (∀ (s : MState) (name : String), (activate s name).res = .ok () →
      mget s.pluginStates name = some .installed ∨
      mget s.pluginStates name = some .inactive) ∧
    (∀ (s : MState) (name : String), (deactivate s name).res = .ok () →
      mget s.pluginStates name = some .active) ∧
    (∀ (s : MState) (name : String), mhas s.plugins name = true →
      mget s.pluginStates name = some .uninstalled →
      uninstall s name = ⟨.ok (), s, []⟩) := by
  refine ⟨?_, ?_, ?_⟩
  · intro s name h
    rcases hg : mget s.plugins name with _ | p
    · simp [activate, hg] at h
    · by_cases hcond : mget s.pluginStates name = some .installed ∨
          mget s.pluginStates name = some .inactive
      · exact hcond
      · exfalso
        simp only [activate, hg, if_neg hcond] at h
        cases h
  · intro s name h
    rcases hg : mget s.plugins name with _ | p
    · simp [deactivate, hg] at h
    · by_cases hcond : mget s.pluginStates name = some .active
      · exact hcond
      · exfalso
        simp only [deactivate, hg, if_neg hcond] at h
        cases h
  · intro s name hhas hstate
    obtain ⟨p, hp⟩ := mget_isSome_of_mhas s.plugins name hhas
    simp [uninstall, hp, hstate]

/-- C6 (witness): the claim applied to the one-plugin managers `sInst`
(activate from `installed` succeeds), `sActv` (deactivate from `active`
succeeds) and `sUnin` (repeated uninstall is a silent no-op). -/
theorem claim_C6_witness :
    ((activate sInst "u").res = .ok () →
      mget sInst.pluginStates "u" = some .installed ∨
      mget sInst.pluginStates "u" = some .inactive) ∧
    ((deactivate sActv "u").res = .ok () →
      mget sActv.pluginStates "u" = some .active) ∧
    uninstall sUnin "u" = ⟨.ok (), sUnin, []⟩ ∧
    (activate sInst "u").res = .ok () ∧
    (deactivate sActv "u").res = .ok () := by
  have h := claim_C6
  exact ⟨h.1 sInst "u", h.2.1 sActv "u",
    h.2.2 sUnin "u" (by decide) (by decide), by decide, by decide⟩

/-- C7: `triggerRequest` invokes `onRequest` across the active plugins
in order, and the first plugin that returns a `Response` short-circuits
the fan-out: that `Response` is the overall result, the invocation trace
consists of exactly the earlier hook-bearing plugins followed by the
responder, and no later plugin's `onRequest` is ever invoked. -/
theorem claim_C7 (s : MState) (pre : List Plugin) (p : Plugin)
    (post : List Plugin) (resp : Response)
    (hsplit : getActivePlugins s = pre ++ p :: post)
    (hnd : (activeNames s).Nodup)
    (hbenign : ∀ r ∈ pre, reqBenign s.continueOnError r)
    (hp : p.onRequest = some (.ok (some resp))) :
    (triggerRequest s).res = .ok (some resp) ∧
    requestCalls (triggerRequest s).log =
      ((pre.filter (fun q => q.onRequest.isSome)).map (fun q => q.name)) ++
        [p.name] ∧
    (∀ q ∈ post, q.name ∉ requestCalls (triggerRequest s).log) := by
  obtain ⟨s', hrun⟩ := requestLoop_first pre p post s [] resp hbenign hp
  have htr : triggerRequest s = ⟨.ok (some resp), s',
      [] ++ pre.flatMap reqEvsOf ++ [Ev.hookCall p.name HK.hkRequest]⟩ := by
    unfold triggerRequest
    rw [hsplit]
    exact hrun
  have hcalls : requestCalls (triggerRequest s).log =
      ((pre.filter (fun q => q.onRequest.isSome)).map (fun q => q.name)) ++
        [p.name] := by
    rw [htr]
    simp only [List.nil_append, requestCalls_append,
      requestCalls_flatMap_benign s.continueOnError pre hbenign]
    simp [requestCalls]
  refine ⟨by rw [htr], hcalls, ?_⟩
  intro q hq hmem
  rw [hcalls] at hmem
  have hndnames : ((pre ++ p :: post).map (fun r => r.name)).Nodup := by
    have : activeNames s = (pre ++ p :: post).map (fun r => r.name) := by
      unfold activeNames
      rw [hsplit]
    rw [← this]
    exact hnd
  simp only [List.map_append, List.map_cons, List.nodup_append,
    List.nodup_cons] at hndnames
  obtain ⟨_, ⟨hpnotin, _⟩, hdisj⟩ := hndnames
  rcases List.mem_append.mp hmem with hmem | hmem
  · rcases List.mem_map.mp hmem with ⟨r, hr, hrname⟩
    have hrpre : r ∈ pre := List.mem_of_mem_filter hr
    exact hdisj (List.mem_map_of_mem (fun x => x.name) hrpre)
      (by
        rw [hrname]
        simp only [List.mem_cons]
        exact Or.inr (List.mem_map_of_mem (fun x => x.name) hq))
  · rw [List.mem_singleton] at hmem
    exact hpnotin (hmem ▸ List.mem_map_of_mem (fun x => x.name) hq)

/-- C7 (witness): with the two active plugins of `sReq`, the first
returns a `Response`, which is the overall result, and the second
plugin's `onRequest` is never invoked. -/
theorem claim_C7_witness :
    (triggerRequest sReq).res = .ok (some ⟨200⟩) ∧
    requestCalls (triggerRequest sReq).log = ["r1"] ∧
    ("r2" ∉ requestCalls (triggerRequest sReq).log) := by
  have h := claim_C7 sReq [] reqP1 [reqP2] ⟨200⟩ (by decide) (by decide)
    (fun r hr => absurd hr (List.not_mem_nil r)) rfl
  refine ⟨h.1, by simpa using h.2.1, ?_⟩
  have := h.2.2 reqP2 (List.mem_singleton.mpr rfl)
  exact this

/-- C8: when the target plugin is in state `installed` or `inactive`,
`activate` fails on the first declared dependency whose current state is
not `active`, raising an error that names that dependency and renders
its current state (the rendering of a never-registered dependency being
"undefined"); it succeeds — moving the plugin to `active` and clearing
its recorded error — exactly when every declared dependency is `active`;
and its outcome is independent of `continueOnError`. -/
theorem claim_C8 (s : MState) (name : String) (p : Plugin)
    (hget : mget s.plugins name = some p)
    (hok : mget s.pluginStates name = some .installed ∨
      mget s.pluginStates name = some .inactive) :
    (∀ (pre : List String) (d : String) (rest : List String),
      p.dependencies = pre ++ d :: rest →
      (∀ d' ∈ pre, mget s.pluginStates d' = some PluginState.active) →
      mget s.pluginStates d ≠ some PluginState.active →
      activate s name = ⟨.error (.pluginDependencyNotActive name d (optStateStr (mget s.pluginStates d))), s, []⟩ ∧
      (mget s.pluginStates d = none →
        optStateStr (mget s.pluginStates d) = "undefined")) ∧
    ((∀ d ∈ p.dependencies, mget s.pluginStates d = some PluginState.active) →
      activate s name = ⟨.ok (), { s with pluginStates := mset s.pluginStates name .active, pluginErrors := mdel s.pluginErrors name }, [Ev.activated name]⟩) ∧
    (∀ b : Bool,
      (activate { s with continueOnError := b } name).res =
        (activate s name).res ∧
      (activate { s with continueOnError := b } name).log =
        (activate s name).log) := by
  refine ⟨?_, ?_, ?_⟩
  · intro pre d rest hdeps hpre hd
    refine ⟨?_, ?_⟩
    · simp only [activate, hget]
      rw [if_pos hok, hdeps,
        firstUnmet_eq_some s.pluginStates pre d rest hpre hd]
    · intro hnone
      rw [hnone]
      rfl
  · intro hall
    simp only [activate, hget]
    rw [if_pos hok, firstUnmet_eq_none s.pluginStates p.dependencies hall]
  · intro b
    have hp : ({ s with continueOnError := b } : MState).plugins =
        s.plugins := rfl
    have hs : ({ s with continueOnError := b } : MState).pluginStates =
        s.pluginStates := rfl
    constructor <;>
    · simp only [activate, hp, hs, hget]
      rw [if_pos hok]
      rw [if_pos hok]
      rcases firstUnmet s.pluginStates p.dependencies with _ | d <;> rfl

/-- C8 (witness): activating `auth` while its dependency `db` is merely
`installed` fails naming `db` and "installed"; activating `g`, whose
dependency was never registered, fails naming `ghost` and "undefined";
activating `auth` once `db` is `active` succeeds. -/
theorem claim_C8_witness :
    activate sAuthI "auth" = ⟨.error (.pluginDependencyNotActive "auth" "db" (optStateStr (mget sAuthI.pluginStates "db"))), sAuthI, []⟩ ∧
    activate sGhost "g" = ⟨.error (.pluginDependencyNotActive "g" "ghost" (optStateStr (mget sGhost.pluginStates "ghost"))), sGhost, []⟩ ∧
    optStateStr (mget sGhost.pluginStates "ghost") = "undefined" ∧
    (activate sAuthA "auth").res = .ok () := by
  have h1 := claim_C8 sAuthI "auth" depAuth (by decide) (Or.inl (by decide))
  have h2 := claim_C8 sGhost "g" depGhost (by decide) (Or.inl (by decide))
  have h3 := claim_C8 sAuthA "auth" depAuth (by decide) (Or.inl (by decide))
  refine ⟨?_, ?_, ?_, ?_⟩
  · exact (h1.1 [] "db" [] rfl (by decide) (by decide)).1
  · exact (h2.1 [] "ghost" [] rfl (by decide) (by decide)).1
  · exact (h2.1 [] "ghost" [] rfl (by decide) (by decide)).2 (by decide)
  · rw [h3.2.1 (by decide)]

/-- C9: a second `register` of an already-registered name with `replace`
false raises the "already registered" error, leaving the state exactly
as it was and emitting nothing; with `replace` true it succeeds,
re-registers the plugin with state reset to `registered`, clears the
name's prior config, error and service entries, and emits exactly the
`replaced` event followed by the `registered` event. -/
theorem claim_C9 (s : MState) (p : Plugin)
    (hhas : mhas s.plugins p.name = true)
    (hnc : (mkeys s.pluginConfigs).Nodup)
    (hne : (mkeys s.pluginErrors).Nodup)
    (hns : (mkeys s.pluginServices).Nodup) :
    register s p false = ⟨.error (.pluginAlreadyRegistered p.name), s, []⟩ ∧
    (register s p true).res = .ok () ∧
    (register s p true).log = [Ev.replaced p.name, Ev.registered p.name] ∧
    mget (register s p true).s.plugins p.name = some p ∧
    mget (register s p true).s.pluginStates p.name =
      some PluginState.registered ∧
    mget (register s p true).s.pluginConfigs p.name = none ∧
    mget (register s p true).s.pluginErrors p.name = none ∧
    mget (register s p true).s.pluginServices p.name = none := by
  have hreg : register s p true = ⟨.ok (), { s with plugins := mset s.plugins p.name p, pluginStates := mset (mdel s.pluginStates p.name) p.name .registered, pluginServices := mdel s.pluginServices p.name, pluginConfigs := mdel s.pluginConfigs p.name, pluginErrors := mdel s.pluginErrors p.name }, [Ev.replaced p.name, Ev.registered p.name]⟩ := by
    simp [register, hhas]
  refine ⟨by simp [register, hhas], ?_, ?_, ?_, ?_, ?_, ?_, ?_⟩ <;>
    rw [hreg] <;> try rfl
  · exact mget_mset_self _ _ _
  · exact mget_mset_self _ _ _
  · exact mget_mdel_self _ _ hnc
  · exact mget_mdel_self _ _ hne
  · exact mget_mdel_self _ _ hns

/-- C9 (witness): re-registering `p` (version 2) over `sReg` without
`replace` fails with the already-registered error and leaves `sReg`
untouched; with `replace` it succeeds, stores version 2 in state
`registered`, and logs `[replaced, registered]`. -/
theorem claim_C9_witness :
    register sReg regP2 false =
      ⟨.error (.pluginAlreadyRegistered "p"), sReg, []⟩ ∧
    (register sReg regP2 true).res = .ok () ∧
    (register sReg regP2 true).log = [Ev.replaced "p", Ev.registered "p"] ∧
    mget (register sReg regP2 true).s.plugins "p" = some regP2 ∧
    mget (register sReg regP2 true).s.pluginStates "p" =
      some PluginState.registered := by
  have h := claim_C9 sReg regP2 (by decide) (by decide) (by decide)
    (by decide)
  exact ⟨h.1, h.2.1, h.2.2.1, h.2.2.2.1, h.2.2.2.2.1⟩
